import Mathlib

set_option linter.unusedVariables false

/-! Shallow embedding of the gma crate (a codec for the GMA addon archive
format).  Bytes are natural numbers below 256, byte streams are lists of
naturals, and Rust strings are modelled as their UTF-8 byte sequences.
Machine integers are encoded/decoded little-endian with explicit mod
arithmetic.  Fallible operations return an Except value over the crate's
error enum; code paths that panic in the source (expect / unwrap /
assert) are modelled with a dedicated outcome constructor. -/

/-- ASCII byte list of a pure-ASCII string literal. -/
def asciiOf (s : String) : List Nat := s.data.map Char.toNat

/-- crate error enum from error.rs.  The binary.rs error variants are
identified with their images under the From conversion in error.rs
(InvalidCString to InvalidString, InvalidUTF8 to UTF8Error, IOError to
IOError); error payloads that carry foreign data (io::Error,
FromUtf8Error, lzma error) are dropped. -/
inductive GError where
  | IOError
  | InvalidString
  | UTF8Error
  | InvalidIdent
  | InvalidVersion (found : Nat)
  | CompressionError
  | InvalidAddonType
  | InvalidAddonTag
deriving DecidableEq, Repr

/-- Outcome of running code that may return a value, return a typed error,
or panic (expect / unwrap / assert in the source). -/
inductive POutcome (α : Type) where
  | ok (a : α)
  | err (e : GError)
  | panicked
deriving DecidableEq, Repr

/-- Little-endian byte encoding of a value into k bytes. -/
def leBytes (k : Nat) (v : Nat) : List Nat :=
  match k with
  | 0 => []
  | k + 1 => v % 256 :: leBytes k (v / 256)

/-- Little-endian value of a byte list. -/
def leVal : List Nat → Nat
  | [] => 0
  | b :: r => b % 256 + 256 * leVal r

def u8Bytes (v : Nat) : List Nat := leBytes 1 v

def u32Bytes (v : Nat) : List Nat := leBytes 4 v

def u64Bytes (v : Nat) : List Nat := leBytes 8 v

/-! UTF-8 validity, as checked by Rust's String::from_utf8, expressed as a
byte-level DFA.  A state is either the codepoint boundary or an
expectation of a byte in a given range followed by a number of further
continuation bytes. -/

inductive Utf8State where
  | start
  | expect (lo hi more : Nat)
deriving DecidableEq, Repr

def utf8Next (st : Utf8State) (b : Nat) : Option Utf8State :=
  match st with
  | .start =>
    if b ≤ 0x7F then some .start
    else if 0xC2 ≤ b ∧ b ≤ 0xDF then some (.expect 0x80 0xBF 0)
    else if b = 0xE0 then some (.expect 0xA0 0xBF 1)
    else if 0xE1 ≤ b ∧ b ≤ 0xEC then some (.expect 0x80 0xBF 1)
    else if b = 0xED then some (.expect 0x80 0x9F 1)
    else if 0xEE ≤ b ∧ b ≤ 0xEF then some (.expect 0x80 0xBF 1)
    else if b = 0xF0 then some (.expect 0x90 0xBF 2)
    else if 0xF1 ≤ b ∧ b ≤ 0xF3 then some (.expect 0x80 0xBF 2)
    else if b = 0xF4 then some (.expect 0x80 0x8F 2)
    else none
  | .expect lo hi more =>
    if lo ≤ b ∧ b ≤ hi then
      if more = 0 then some .start else some (.expect 0x80 0xBF (more - 1))
    else none

def utf8Run (st : Utf8State) : List Nat → Bool
  | [] => match st with | .start => true | _ => false
  | b :: r =>
    match utf8Next st b with
    | none => false
    | some st2 => utf8Run st2 r

def utf8Valid (s : List Nat) : Bool := utf8Run .start s

/-! Binary primitives from binary.rs.  Readers take the remaining byte
stream and return the value paired with the count of bytes read (the
source returns `(usize, value)` pairs) and the rest of the stream; a short
read is the IOError produced by read_exact. -/

def read_u8 (s : List Nat) : Except GError ((Nat × Nat) × List Nat) :=
  match s with
  | [] => .error .IOError
  | b :: r => .ok ((1, b), r)

def read_u32 (s : List Nat) : Except GError ((Nat × Nat) × List Nat) :=
  if s.length < 4 then .error .IOError
  else .ok ((4, leVal (s.take 4)), s.drop 4)

def read_u64 (s : List Nat) : Except GError ((Nat × Nat) × List Nat) :=
  if s.length < 8 then .error .IOError
  else .ok ((8, leVal (s.take 8)), s.drop 8)

/-- read_until(0): the bytes read including the delimiter when found, and
the rest of the stream. -/
def readUntilZero : List Nat → List Nat × List Nat
  | [] => ([], [])
  | b :: r =>
    if b = 0 then ([0], r)
    else
      let p := readUntilZero r
      (b :: p.1, p.2)

/-- read_c_string from binary.rs: read_until(0), record the byte count,
pop the last byte of the buffer, then validate UTF-8. -/
def read_c_string (s : List Nat) : Except GError ((Nat × List Nat) × List Nat) :=
  let p := readUntilZero s
  let bytes_read := p.1.length
  let buf := p.1.dropLast
  if utf8Valid buf then .ok ((bytes_read, buf), p.2) else .error .UTF8Error

/-! Binary writer primitives.  The sink is modelled as a byte buffer plus
a cursor position (the source writes through Write + Seek sinks whose
only uses are append-at-end and overwrite-within-bounds). -/

structure WState where
  data : List Nat
  pos : Nat
deriving DecidableEq, Repr

/-- Overwrite bytes of `d` starting at `p` (extending at the end). -/
def writeAt (d : List Nat) (p : Nat) (bs : List Nat) : List Nat :=
  d.take p ++ bs ++ d.drop (p + bs.length)

def wWrite (st : WState) (bs : List Nat) : WState :=
  { data := writeAt st.data st.pos bs, pos := st.pos + bs.length }

def write_u8 (st : WState) (v : Nat) : WState := wWrite st (u8Bytes v)

def write_u32 (st : WState) (v : Nat) : WState := wWrite st (u32Bytes v)

def write_u64 (st : WState) (v : Nat) : WState := wWrite st (u64Bytes v)

/-- write_c_string: fails with InvalidString (the mapped InvalidCString)
when the text contains an embedded null byte, otherwise writes the raw
bytes plus one null terminator. -/
def write_c_string (st : WState) (s : List Nat) : Except GError WState :=
  if 0 ∈ s then .error .InvalidString
  else .ok (wWrite st (s ++ [0]))

/-! CRC-32/ISO-HDLC (the crc crate's CRC_32_ISO_HDLC): reflected
polynomial 0xEDB88320, initial value 0xFFFFFFFF, final xor 0xFFFFFFFF,
computed bitwise. -/

def crc32Bit (c : Nat) : Nat :=
  if c % 2 = 1 then (c / 2) ^^^ 0xEDB88320 else c / 2

def crc32Byte (c b : Nat) : Nat :=
  crc32Bit (crc32Bit (crc32Bit (crc32Bit (crc32Bit (crc32Bit (crc32Bit (crc32Bit (c ^^^ b % 256))))))))

def crc32 (bs : List Nat) : Nat :=
  (bs.foldl crc32Byte 0xFFFFFFFF) ^^^ 0xFFFFFFFF

/-! Addon classification enums from lib.rs. -/

inductive AddonType where
  | Gamemode | Map | Weapon | Vehicle | NPC
  | Entity | Tool | Effects | Model | ServerContent
deriving DecidableEq, Repr

inductive AddonTag where
  | Fun | Roleplay | Scenic | Movie | Realism
  | Cartoon | Water | Comic | Build
deriving DecidableEq, Repr

/-- ASCII lowercasing of a byte string.  The source calls Rust's Unicode
to_lowercase before matching against all-ASCII keyword strings; the only
non-ASCII characters whose lowercase forms are pure ASCII map to the
letter k or to strings containing combining marks, and no keyword of this
crate contains the letter k, so ASCII lowercasing matches the same inputs
to the same keywords. -/
def to_lowercase (s : List Nat) : List Nat :=
  s.map fun b => if 65 ≤ b ∧ b ≤ 90 then b + 32 else b

def string_to_type (s : List Nat) : Option AddonType :=
  let l := to_lowercase s
  if l = asciiOf "gamemode" then some .Gamemode
  else if l = asciiOf "map" then some .Map
  else if l = asciiOf "weapon" then some .Weapon
  else if l = asciiOf "vehicle" then some .Vehicle
  else if l = asciiOf "npc" then some .NPC
  else if l = asciiOf "entity" then some .Entity
  else if l = asciiOf "tool" then some .Tool
  else if l = asciiOf "effects" then some .Effects
  else if l = asciiOf "model" then some .Model
  else if l = asciiOf "servercontent" then some .ServerContent
  else none

def type_to_string (ty : AddonType) : List Nat :=
  match ty with
  | .Gamemode => asciiOf "gamemode"
  | .Map => asciiOf "map"
  | .Weapon => asciiOf "weapon"
  | .Vehicle => asciiOf "vehicle"
  | .NPC => asciiOf "npc"
  | .Entity => asciiOf "entity"
  | .Tool => asciiOf "tool"
  | .Effects => asciiOf "effects"
  | .Model => asciiOf "model"
  | .ServerContent => asciiOf "servercontent"

def string_to_tag (s : List Nat) : Option AddonTag :=
  let l := to_lowercase s
  if l = asciiOf "fun" then some .Fun
  else if l = asciiOf "roleplay" then some .Roleplay
  else if l = asciiOf "scenic" then some .Scenic
  else if l = asciiOf "movie" then some .Movie
  else if l = asciiOf "realism" then some .Realism
  else if l = asciiOf "cartoon" then some .Cartoon
  else if l = asciiOf "water" then some .Water
  else if l = asciiOf "comic" then some .Comic
  else if l = asciiOf "build" then some .Build
  else none

def tag_to_string (t : AddonTag) : List Nat :=
  match t with
  | .Fun => asciiOf "fun"
  | .Roleplay => asciiOf "roleplay"
  | .Scenic => asciiOf "scenic"
  | .Movie => asciiOf "movie"
  | .Realism => asciiOf "realism"
  | .Cartoon => asciiOf "cartoon"
  | .Water => asciiOf "water"
  | .Comic => asciiOf "comic"
  | .Build => asciiOf "build"

/-- addon_metadata.rs record: title, description, a type name string and a
list of tag name strings. -/
structure AddonMetadata where
  title : Option (List Nat)
  description : List Nat
  addon_type : List Nat
  tags : List (List Nat)
deriving DecidableEq, Repr

def AddonMetadata.new (title description : List Nat) (addon_type : AddonType)
    (addon_tags : List AddonTag) : AddonMetadata :=
  { title := some title
    description := description
    addon_type := type_to_string addon_type
    tags := addon_tags.map tag_to_string }

def AddonMetadata.get_description (m : AddonMetadata) : List Nat := m.description

def AddonMetadata.get_type (m : AddonMetadata) : Option AddonType :=
  string_to_type m.addon_type

def AddonMetadata.get_tags (m : AddonMetadata) :
    Option AddonTag × Option AddonTag :=
  let opt_t1 := (m.tags.get? 0).map string_to_tag
  let opt_t2 := (m.tags.get? 1).map string_to_tag
  (opt_t1.getD none, opt_t2.getD none)

/-! The JSON text encoding itself is provided by the external nanoserde
crate, which is not part of this repository.  Modelled from the spec:
the metadata codec "produces a structured text blob embedding description,
a string form of the type, and a list of 0-2 string tag names, in that
declared shape", and decoding "attempts structured parse; on any parse
failure returns nothing".  The model below is a concrete self-inverse
textual encoding of the declared record shape (title, description, type,
tags, with quote and backslash characters escaped inside string values);
decoding recognizes exactly that shape and returns none on any deviation.
Byte 34 is the quote, 92 the backslash, 123 and 125 the braces, 91 and 93
the square brackets, 44 the comma and 58 the colon. -/

def jsonEscape : List Nat → List Nat
  | [] => []
  | b :: r =>
    if b = 34 ∨ b = 92 then 92 :: b :: jsonEscape r
    else b :: jsonEscape r

def jsonString (s : List Nat) : List Nat := 34 :: jsonEscape s ++ [34]

/-- JSON fragment for the tag-name array, including the closing bracket. -/
def tagsJsonMore : List (List Nat) → List Nat
  | [] => [93]
  | t :: r => 44 :: (jsonString t ++ tagsJsonMore r)

def tagsJson : List (List Nat) → List Nat
  | [] => [93]
  | t :: r => jsonString t ++ tagsJsonMore r

/-- Key bytes: opening brace then the quoted key title and a colon. -/
def keyTitle : List Nat := [123, 34, 116, 105, 116, 108, 101, 34, 58]

/-- Key bytes: comma then the quoted key description and a colon. -/
def keyDesc : List Nat :=
  [44, 34, 100, 101, 115, 99, 114, 105, 112, 116, 105, 111, 110, 34, 58]

/-- Key bytes: comma then the quoted key type and a colon. -/
def keyType : List Nat := [44, 34, 116, 121, 112, 101, 34, 58]

/-- Key bytes: comma then the quoted key tags, a colon and the opening
square bracket. -/
def keyTags : List Nat := [44, 34, 116, 97, 103, 115, 34, 58, 91]

/-- The bytes of the word null. -/
def litNull : List Nat := [110, 117, 108, 108]

/-- Modelled from the spec: nanoserde SerJson on the AddonMetadata record. -/
def AddonMetadata.to_json (m : AddonMetadata) : List Nat :=
  keyTitle
    ++ (match m.title with
        | none => litNull
        | some t => jsonString t)
    ++ keyDesc ++ jsonString m.description
    ++ keyType ++ jsonString m.addon_type
    ++ keyTags ++ tagsJson m.tags
    ++ [125]

def parseExact : List Nat → List Nat → Option (List Nat)
  | [], s => some s
  | _ :: _, [] => none
  | l :: lr, b :: s => if b = l then parseExact lr s else none

def parseStringBody : List Nat → Option (List Nat × List Nat)
  | [] => none
  | b :: r =>
    if b = 34 then some ([], r)
    else if b = 92 then
      match r with
      | [] => none
      | e :: r2 =>
        if e = 34 ∨ e = 92 then
          (parseStringBody r2).map fun p => (e :: p.1, p.2)
        else none
    else (parseStringBody r).map fun p => (b :: p.1, p.2)

def parseString (s : List Nat) : Option (List Nat × List Nat) :=
  match s with
  | 34 :: r => parseStringBody r
  | _ => none

def parseTitle (s : List Nat) : Option (Option (List Nat) × List Nat) :=
  match parseExact litNull s with
  | some r => some (none, r)
  | none => (parseString s).map fun p => (some p.1, p.2)

/-- Tag-name array parser after the first element: expects a closing
bracket (byte 93) or a comma (byte 44) followed by a string. -/
def parseTagsMore (s : List Nat) : Option (List (List Nat) × List Nat) :=
  match s with
  | [] => none
  | b :: r =>
    if b = 93 then some ([], r)
    else if b = 44 then
      match hp : parseString r with
      | none => none
      | some (t, s2) =>
        match parseTagsMore s2 with
        | none => none
        | some (ts, s3) => some (t :: ts, s3)
    else none
termination_by s.length
decreasing_by
  have hsb : ∀ (u c crest : List Nat),
      parseStringBody u = some (c, crest) → crest.length < u.length := by
    intro u c crest h
    induction u using parseStringBody.induct generalizing c crest with
    | case1 => simp [parseStringBody] at h
    | case2 r0 =>
      rw [parseStringBody.eq_def] at h
      simp at h
      rcases h with ⟨h1, h2⟩
      subst h2
      simp
    | case3 hne => rw [parseStringBody.eq_def] at h; simp at h
    | case4 e r2 he hne ih =>
      cases hp2 : parseStringBody r2 with
      | none => rw [parseStringBody.eq_def] at h; simp [he, hp2] at h
      | some p =>
        rw [parseStringBody.eq_def] at h
        simp [he, hp2] at h
        rcases h with ⟨h1, h2⟩
        have hlt := ih p.1 p.2 (by rw [hp2])
        rw [← h2]
        simp
        omega
    | case5 e r2 hne2 hne =>
      rw [parseStringBody.eq_def] at h
      simp [hne2] at h
    | case6 b0 r0 h34 h92 ih =>
      cases hp2 : parseStringBody r0 with
      | none => rw [parseStringBody.eq_def] at h; simp [h34, h92, hp2] at h
      | some p =>
        rw [parseStringBody.eq_def] at h
        simp [h34, h92, hp2] at h
        rcases h with ⟨h1, h2⟩
        have hlt := ih p.1 p.2 (by rw [hp2])
        rw [← h2]
        simp
        omega
  have hps : s2.length < r.length := by
    unfold parseString at hp
    split at hp
    · rename_i rr
      have := hsb rr t s2 hp
      simp
      omega
    · simp at hp
  simp
  omega

/-- Tag-name array parser right after the opening bracket. -/
def parseTagItems (s : List Nat) : Option (List (List Nat) × List Nat) :=
  match s with
  | [] => none
  | b :: r =>
    if b = 93 then some ([], r)
    else
      match parseString (b :: r) with
      | none => none
      | some (t, s2) =>
        match parseTagsMore s2 with
        | none => none
        | some (ts, s3) => some (t :: ts, s3)

/-- Modelled from the spec: nanoserde DeJson on the AddonMetadata record;
recognizes exactly the declared record shape and returns none on any
deviation ("on any parse failure returns nothing"). -/
def AddonMetadata.from_json (s : List Nat) : Option AddonMetadata :=
  match parseExact keyTitle s with
  | none => none
  | some s =>
    match parseTitle s with
    | none => none
    | some (title, s) =>
      match parseExact keyDesc s with
      | none => none
      | some s =>
        match parseString s with
        | none => none
        | some (description, s) =>
          match parseExact keyType s with
          | none => none
          | some s =>
            match parseString s with
            | none => none
            | some (ty, s) =>
              match parseExact keyTags s with
              | none => none
              | some s =>
                match parseTagItems s with
                | none => none
                | some (tags, s) =>
                  match s with
                  | [125] => some ⟨title, description, ty, tags⟩
                  | _ => none

/-! Builder from gma_builder.rs.  File sources are modelled by the
in-memory Bytes variant of BuilderFileReader (the path and boxed-reader
variants differ only in where the bytes come from, which is filesystem
state outside the pure model). -/

/-- The 4 magic bytes G M A D. -/
def IDENT : List Nat := [71, 77, 65, 68]

def VALID_VERSIONS : List Nat := [1, 2, 3]

structure BuilderFile where
  filename : List Nat
  contents : List Nat
deriving DecidableEq, Repr

structure FilePatchInfo where
  filesize : Nat
  crc : Nat
deriving DecidableEq, Repr

structure GMABuilder where
  version : Option Nat
  steamid : Option Nat
  timestamp : Option Nat
  name : Option (List Nat)
  description : Option (List Nat)
  author : Option (List Nat)
  files : List BuilderFile
  addon_type : AddonType
  addon_tags : Option AddonTag × Option AddonTag
  compression : Option Bool
deriving DecidableEq, Repr

/-- GMABuilder::new; the current time, an external collaborator, is passed
in as a parameter. -/
def GMABuilder.new (current_timestamp : Nat) : GMABuilder :=
  { version := some 3
    steamid := some 0
    timestamp := some current_timestamp
    name := none
    description := some []
    author := some (asciiOf "unknown")
    files := []
    addon_type := .Tool
    addon_tags := (none, none)
    compression := some false }

/-- Builder setter methods (named set_x where the source method x collides
with the field name). -/
def GMABuilder.set_version (b : GMABuilder) (version : Nat) : GMABuilder :=
  { b with version := some version }

def GMABuilder.set_steamid (b : GMABuilder) (steamid : Nat) : GMABuilder :=
  { b with steamid := some steamid }

def GMABuilder.set_timestamp (b : GMABuilder) (timestamp : Nat) : GMABuilder :=
  { b with timestamp := some timestamp }

def GMABuilder.set_name (b : GMABuilder) (name : List Nat) : GMABuilder :=
  { b with name := some name }

def GMABuilder.set_description (b : GMABuilder) (description : List Nat) : GMABuilder :=
  { b with description := some description }

def GMABuilder.set_author (b : GMABuilder) (author : List Nat) : GMABuilder :=
  { b with author := some author }

def GMABuilder.set_compression (b : GMABuilder) (c : Bool) : GMABuilder :=
  { b with compression := some c }

def GMABuilder.set_addon_type (b : GMABuilder) (addon_type : AddonType) : GMABuilder :=
  { b with addon_type := addon_type }

/-- GMABuilder::addon_tag: the two-slot insertion from the source, with
the slot pair standing for the addon_tags array. -/
def GMABuilder.addon_tag (b : GMABuilder) (addon_tag : AddonTag) : GMABuilder :=
  let avail1 := b.addon_tags.1.isNone
  let avail2 := b.addon_tags.2.isNone
  match avail1, avail2 with
  | false, false => { b with addon_tags := (some addon_tag, b.addon_tags.1) }
  | true, true => { b with addon_tags := (some addon_tag, b.addon_tags.1) }
  | _, _ => { b with addon_tags := (b.addon_tags.1, some addon_tag) }

def GMABuilder.file_from_bytes (b : GMABuilder) (filename bytes : List Nat) : GMABuilder :=
  { b with files := b.files ++ [⟨filename, bytes⟩] }

/-- The tag list collected in write_to_gen by filtering the present slots
of the addon_tags array in order. -/
def tagsList (tags : Option AddonTag × Option AddonTag) : List AddonTag :=
  (match tags.1 with | some t => [t] | none => [])
    ++ (match tags.2 with | some t => [t] | none => [])

def write_incomplete_file_entry (st : WState) (file_number : Nat)
    (bfile : BuilderFile) : Except GError (WState × Nat) :=
  let st := write_u32 st file_number
  match write_c_string st bfile.filename with
  | .error e => .error e
  | .ok st =>
    let offset_to_patch_start := st.pos
    let st := write_u64 st 0
    let st := write_u32 st 0
    .ok (st, offset_to_patch_start)

/-- write_file_contents over an in-memory byte source: the source streams
the bytes in blocks while folding the CRC-32 digest and counting the
bytes written; over a pure byte list that amounts to writing the bytes
verbatim and recording their length and checksum, and the stream-error
paths cannot occur. -/
def write_file_contents (st : WState) (bfile : BuilderFile) : WState × FilePatchInfo :=
  (wWrite st bfile.contents, ⟨bfile.contents.length, crc32 bfile.contents⟩)

/-- Pass 1 of write_to_gen: the enumerated loop writing incomplete file
entries and recording the placeholder offsets. -/
def writeEntriesPass1 (st : WState) (i : Nat) :
    List BuilderFile → Except GError (WState × List Nat)
  | [] => .ok (st, [])
  | f :: fs =>
    match write_incomplete_file_entry st (i + 1) f with
    | .error e => .error e
    | .ok (st2, off) =>
      match writeEntriesPass1 st2 (i + 1) fs with
      | .error e => .error e
      | .ok (st3, offs) => .ok (st3, off :: offs)

/-- Pass 2 of write_to_gen: the loop writing the file contents and
collecting the patch records. -/
def writeContentsPass2 (st : WState) :
    List BuilderFile → WState × List FilePatchInfo
  | [] => (st, [])
  | f :: fs =>
    let p := write_file_contents st f
    let q := writeContentsPass2 p.1 fs
    (q.1, p.2 :: q.2)

def apply_file_entry_patch (st : WState) (patch_offset : Nat)
    (patch_info : FilePatchInfo) : WState :=
  let st := { st with pos := patch_offset }
  let st := write_u64 st patch_info.filesize
  let st := write_u32 st patch_info.crc
  st

/-- The patch loop of write_to_gen over the zipped offsets and records. -/
def applyPatches (st : WState) : List (Nat × FilePatchInfo) → WState
  | [] => st
  | (off, info) :: ps => applyPatches (apply_file_entry_patch st off info) ps

/-- GMABuilder::write_to_gen.  Unset required fields (name) and the
assert_eq before the patch pass surface as the panicked outcome. -/
def write_to_gen (b : GMABuilder) : POutcome (List Nat) :=
  match b.name with
  | none => .panicked
  | some name =>
    match b.version, b.steamid, b.timestamp, b.description, b.author with
    | some version, some steamid, some timestamp, some description, some author =>
      let st := wWrite ⟨[], 0⟩ IDENT
      let st := write_u8 st version
      let st := write_u64 st steamid
      let st := write_u64 st timestamp
      let st := write_u8 st 0
      match write_c_string st name with
      | .error e => .err e
      | .ok st =>
        let tags := tagsList b.addon_tags
        let metadata := AddonMetadata.new name description b.addon_type tags
        let metadata_json := metadata.to_json
        match write_c_string st metadata_json with
        | .error e => .err e
        | .ok st =>
          match write_c_string st author with
          | .error e => .err e
          | .ok st =>
            let st := write_u32 st 1
            match writeEntriesPass1 st 0 b.files with
            | .error e => .err e
            | .ok (st, patch_offsets) =>
              let st := write_u32 st 0
              let p2 := writeContentsPass2 st b.files
              if p2.2.length = patch_offsets.length then
                .ok (applyPatches p2.1 (patch_offsets.zip p2.2)).data
              else .panicked
    | _, _, _, _, _ => .panicked

/-- GMABuilder::write_to.  The whole-archive LZMA compression transform is
an external collaborator and is passed in as a function; the source
unwraps its result, so a failing transform is the panicked outcome. -/
def write_to (lzma_compress : List Nat → Option (List Nat)) (b : GMABuilder) :
    POutcome (List Nat) :=
  match b.compression with
  | none => .panicked
  | some true =>
    match write_to_gen b with
    | .ok bytes =>
      match lzma_compress bytes with
      | none => .panicked
      | some out => .ok out
    | .err e => .err e
    | .panicked => .panicked
  | some false => write_to_gen b

/-! Reader from gma_reader.rs. -/

structure FileEntry where
  filename : List Nat
  filesize : Nat
  crc : Nat
  offset : Nat
deriving DecidableEq, Repr

/-- GMAFile: the open archive handle.  The stream field holds the single
owned (possibly decompressed) byte stream; compressed records which
StreamType variant wraps it. -/
structure GMAFile where
  version : Nat
  steamid : Nat
  timestamp : Nat
  name : List Nat
  description : List Nat
  addon_type : Option AddonType
  addon_tags : List AddonTag
  author : List Nat
  entries : List FileEntry
  file_data_start : Nat
  compressed : Bool
  stream : List Nat
deriving DecidableEq, Repr

/-- get_reader_stream: probe the first 4 bytes; on the magic identifier
keep the stream uncompressed, otherwise run the whole stream through the
external LZMA decompressor (passed as a function).  The source calls
unwrap on the decompression result, so a failing decompression panics
instead of producing the CompressionError variant. -/
def get_reader_stream (lzma_decompress : List Nat → Option (List Nat))
    (s : List Nat) : POutcome (Bool × List Nat) :=
  if s.length < 4 then .err .IOError
  else if s.take 4 = IDENT then .ok (false, s)
  else
    match lzma_decompress s with
    | none => .panicked
    | some out => .ok (true, out)

def read_ident (s : List Nat) : Except GError (List Nat) :=
  if s.length < 4 then .error .IOError
  else if s.take 4 = IDENT then .ok (s.drop 4)
  else .error .InvalidIdent

def read_version (s : List Nat) : Except GError (Nat × List Nat) :=
  match read_u8 s with
  | .error e => .error e
  | .ok ((_, version), s) =>
    if version ∈ VALID_VERSIONS then .ok (version, s)
    else .error (.InvalidVersion version)

/-- read_required_content: the do-while loop reading null-terminated
strings until an empty one. -/
def read_required_content (s : List Nat) :
    Except GError (List (List Nat) × List Nat) :=
  match h : read_c_string s with
  | .error e => .error e
  | .ok ((n, str), s2) =>
    if hstr : str = [] then .ok ([str], s2)
    else
      match read_required_content s2 with
      | .error e => .error e
      | .ok (v, s3) => .ok (str :: v, s3)
termination_by s.length
decreasing_by
  have hru : ∀ (u : List Nat),
      (readUntilZero u).1.length + (readUntilZero u).2.length = u.length := by
    intro u
    induction u with
    | nil => rfl
    | cons b r ih => by_cases hb : b = 0 <;> simp [readUntilZero, hb] <;> omega
  have hl := hru s
  unfold read_c_string at h
  by_cases hva : utf8Valid (readUntilZero s).1.dropLast <;> simp [hva] at h
  rcases h with ⟨⟨h1, h2⟩, h3⟩
  subst h3
  subst h2
  have hne : (readUntilZero s).1 ≠ [] := by
    intro hz
    rw [hz] at hstr
    simp at hstr
  have hpos : 0 < (readUntilZero s).1.length := List.length_pos.mpr hne
  omega

/-- read_file_entries: the loop reading table records until the zero
index, with the running content offset accumulated exactly as in the
source. -/
def read_file_entries_go (s : List Nat) (current_offset : Nat) :
    Except GError (List FileEntry × List Nat) :=
  match hidx : read_u32 s with
  | .error e => .error e
  | .ok ((_, idx), s1) =>
    if idx = 0 then .ok ([], s1)
    else
      match hname : read_c_string s1 with
      | .error e => .error e
      | .ok ((_, filename), s2) =>
        match hsize : read_u64 s2 with
        | .error e => .error e
        | .ok ((_, filesize), s3) =>
          match hcrc : read_u32 s3 with
          | .error e => .error e
          | .ok ((_, crc), s4) =>
            match read_file_entries_go s4 (current_offset + filesize) with
            | .error e => .error e
            | .ok (entries, s5) =>
              .ok (⟨filename, filesize, crc, current_offset⟩ :: entries, s5)
termination_by s.length
decreasing_by
  have hru : ∀ (u : List Nat),
      (readUntilZero u).1.length + (readUntilZero u).2.length = u.length := by
    intro u
    induction u with
    | nil => rfl
    | cons b r ih => by_cases hb : b = 0 <;> simp [readUntilZero, hb] <;> omega
  have h32 : ∀ (u : List Nat) (n v : Nat) (rest : List Nat),
      read_u32 u = .ok ((n, v), rest)
        → rest.length + 4 = u.length ∧ 4 ≤ u.length := by
    intro u n v rest h
    unfold read_u32 at h
    by_cases hl : u.length < 4 <;> simp [hl] at h
    rcases h with ⟨h1, h2⟩
    subst h2
    simp
    omega
  have h64 : ∀ (u : List Nat) (n v : Nat) (rest : List Nat),
      read_u64 u = .ok ((n, v), rest)
        → rest.length + 8 = u.length ∧ 8 ≤ u.length := by
    intro u n v rest h
    unfold read_u64 at h
    by_cases hl : u.length < 8 <;> simp [hl] at h
    rcases h with ⟨h1, h2⟩
    subst h2
    simp
    omega
  have hcs : ∀ (u : List Nat) (n : Nat) (v rest : List Nat),
      read_c_string u = .ok ((n, v), rest) → rest.length ≤ u.length := by
    intro u n v rest h
    have := hru u
    unfold read_c_string at h
    by_cases hv : utf8Valid (readUntilZero u).1.dropLast <;> simp [hv] at h
    rcases h with ⟨⟨h1, h2⟩, h3⟩
    subst h3
    omega
  have h1 := h32 s _ _ s1 hidx
  have h2 := hcs s1 _ _ s2 hname
  have h3 := h64 s2 _ _ s3 hsize
  have h4 := h32 s3 _ _ s4 hcrc
  omega

def read_file_entries (s : List Nat) : Except GError (List FileEntry × List Nat) :=
  read_file_entries_go s 0

/-- The metadata interpretation step at the end of read_gma: on a
successful structured decode take the description, type and up to two
pushed tags from the record, otherwise fall back to the raw text as the
description with no type and no tags. -/
def metadata_fields (metadata_str : List Nat) :
    List Nat × Option AddonType × List AddonTag :=
  match AddonMetadata.from_json metadata_str with
  | some metadata =>
    let ty := metadata.get_type
    let t12 := metadata.get_tags
    let desc := metadata.get_description
    let tags := (match t12.1 with | some t => [t] | none => [])
      ++ (match t12.2 with | some t => [t] | none => [])
    (desc, ty, tags)
  | none => (metadata_str, none, [])

/-- GMAFileReader::read_gma on the effective (possibly decompressed)
stream; file_data_start is the stream position after the entry table. -/
def read_gma_inner (compressed : Bool) (es : List Nat) : Except GError GMAFile :=
  match read_ident es with
  | .error e => .error e
  | .ok s =>
  match read_version s with
  | .error e => .error e
  | .ok (version, s) =>
  match read_u64 s with
  | .error e => .error e
  | .ok ((_, steamid), s) =>
  match read_u64 s with
  | .error e => .error e
  | .ok ((_, timestamp), s) =>
  match (if 1 < version then read_required_content s else .ok ([], s)) with
  | .error e => .error e
  | .ok (_, s) =>
  match read_c_string s with
  | .error e => .error e
  | .ok ((_, name), s) =>
  match read_c_string s with
  | .error e => .error e
  | .ok ((_, metadata_str), s) =>
  match read_c_string s with
  | .error e => .error e
  | .ok ((_, author), s) =>
  match read_u32 s with
  | .error e => .error e
  | .ok ((_, _addon_version), s) =>
  match read_file_entries s with
  | .error e => .error e
  | .ok (entries, s) =>
    let file_data_start := es.length - s.length
    let dtt := metadata_fields metadata_str
    .ok { version := version
          steamid := steamid
          timestamp := timestamp
          name := name
          description := dtt.1
          addon_type := dtt.2.1
          addon_tags := dtt.2.2
          author := author
          entries := entries
          file_data_start := file_data_start
          compressed := compressed
          stream := es }

/-- load / GMAFileReader::new followed by read_gma. -/
def read_gma (lzma_decompress : List Nat → Option (List Nat)) (s : List Nat) :
    POutcome GMAFile :=
  match get_reader_stream lzma_decompress s with
  | .panicked => .panicked
  | .err e => .err e
  | .ok (compressed, es) =>
    match read_gma_inner compressed es with
    | .error e => .err e
    | .ok g => .ok g

/-- GMAFile::read_entry: take the single owned stream out of the handle,
seek to file_data_start + entry.offset, give the callback a reader
bounded to entry.filesize bytes, and put the stream back.  The callback
is modelled by returning the bytes the bounded reader yields, paired with
the handle state after the stream is returned. -/
def GMAFile.read_entry (g : GMAFile) (entry : FileEntry) : List Nat × GMAFile :=
  let stream := g.stream
  let seek_to := g.file_data_start + entry.offset
  let entry_reader := (stream.drop seek_to).take entry.filesize
  (entry_reader, { g with stream := stream })

def sumSizes : List FileEntry → Nat
  | [] => 0
  | e :: r => e.filesize + sumSizes r

def c10bytes : List Nat :=
  [71, 77, 65, 68, 3, 0, 0, 0, 0, 0, 0, 0, 0, 0, 0, 0, 0, 0, 0, 0, 0, 0, 65, 0,
   123, 34, 116, 105, 116, 108, 101, 34, 58, 34, 116, 34, 44, 34, 100, 101, 115,
   99, 114, 105, 112, 116, 105, 111, 110, 34, 58, 34, 100, 34, 44, 34, 116, 121,
   112, 101, 34, 58, 34, 116, 111, 111, 108, 34, 44, 34, 116, 97, 103, 115, 34,
   58, 91, 34, 102, 117, 110, 34, 44, 34, 102, 117, 110, 34, 44, 34, 102, 117,
   110, 34, 93, 125, 0, 66, 0, 1, 0, 0, 0, 0, 0, 0, 0]

/-! Closed forms of the byte regions produced by write_to_gen. -/

def entryHeaderP (i : Nat) (fname : List Nat) : List Nat :=
  u32Bytes i ++ fname ++ [0] ++ u64Bytes 0 ++ u32Bytes 0

def entryHeaderF (i : Nat) (f : BuilderFile) : List Nat :=
  u32Bytes i ++ f.filename ++ [0] ++ u64Bytes f.contents.length
    ++ u32Bytes (crc32 f.contents)

def tableP (i : Nat) : List BuilderFile → List Nat
  | [] => []
  | f :: fs => entryHeaderP (i + 1) f.filename ++ tableP (i + 1) fs

def tableF (i : Nat) : List BuilderFile → List Nat
  | [] => []
  | f :: fs => entryHeaderF (i + 1) f ++ tableF (i + 1) fs

def offsetsP (base i : Nat) : List BuilderFile → List Nat
  | [] => []
  | f :: fs => (base + 4 + f.filename.length + 1)
      :: offsetsP (base + 4 + f.filename.length + 1 + 12) (i + 1) fs

def contentsOf : List BuilderFile → List Nat
  | [] => []
  | f :: fs => f.contents ++ contentsOf fs

def infosOf : List BuilderFile → List FilePatchInfo
  | [] => []
  | f :: fs => ⟨f.contents.length, crc32 f.contents⟩ :: infosOf fs

/-- The header region of an uncompressed archive as written by
write_to_gen: magic, version, steam id, timestamp, the always-written
empty required-content byte, the three null-terminated strings and the
constant addon-format version. -/
def headerOf (version steamid timestamp : Nat)
    (name mjson author : List Nat) : List Nat :=
  IDENT ++ u8Bytes version ++ u64Bytes steamid ++ u64Bytes timestamp
    ++ u8Bytes 0 ++ name ++ [0] ++ mjson ++ [0] ++ author ++ [0] ++ u32Bytes 1

def entriesOf (cur : Nat) : List BuilderFile → List FileEntry
  | [] => []
  | f :: fs => ⟨f.filename, f.contents.length, crc32 f.contents, cur⟩
      :: entriesOf (cur + f.contents.length) fs

/-- Invariant of reachable DFA states: continuation expectations only
accept bytes of at least 0x80. -/
def goodState : Utf8State → Prop
  | .start => True
  | .expect lo _ _ => 0x80 ≤ lo

/-- An archive stream assembled from header fields, an arbitrary
entry-table byte region and trailing content; the required-content byte
appears exactly when the version is above 1 (as the reader expects -
note that the builder writes it unconditionally). -/
def archiveOf (ver sid ts : Nat) (name m author : List Nat) (av : Nat)
    (rest : List Nat) : List Nat :=
  IDENT ++ (u8Bytes ver ++ (u64Bytes sid ++ (u64Bytes ts
    ++ ((if 1 < ver then [0] else []) ++ (name ++ 0 :: (m ++ 0 :: (author
      ++ 0 :: (u32Bytes av ++ rest))))))))

theorem leBytes_length (k v : Nat) : (leBytes k v).length = k := by
  induction k generalizing v with
  | zero => rfl
  | succ k ih => simp [leBytes, ih]

theorem leVal_leBytes (k v : Nat) : leVal (leBytes k v) = v % 256 ^ k := by
  induction k generalizing v with
  | zero => simp [leBytes, leVal, Nat.mod_one]
  | succ k ih =>
    simp only [leBytes, leVal, ih]
    have h : v % (256 * 256 ^ k) = v % 256 + 256 * (v / 256 % 256 ^ k) := Nat.mod_mul
    rw [pow_succ']
    omega

theorem utf8Run_append (a b : List Nat) (st : Utf8State)
    (h : utf8Run st a = true) : utf8Run st (a ++ b) = utf8Run .start b := by
  induction a generalizing st with
  | nil =>
    cases st with
    | start => simp
    | expect lo hi more => simp [utf8Run] at h
  | cons c r ih =>
    simp only [utf8Run, List.cons_append] at h ⊢
    cases hn : utf8Next st c with
    | none => rw [hn] at h; exact absurd h (by simp)
    | some st2 => rw [hn] at h; exact ih st2 h

theorem utf8Valid_append (a b : List Nat) (ha : utf8Valid a = true)
    (hb : utf8Valid b = true) : utf8Valid (a ++ b) = true := by
  unfold utf8Valid at *
  rw [utf8Run_append a b _ ha]
  exact hb

theorem readUntilZero_length (s : List Nat) :
    (readUntilZero s).1.length + (readUntilZero s).2.length = s.length := by
  induction s with
  | nil => rfl
  | cons b r ih =>
    by_cases hb : b = 0 <;> simp [readUntilZero, hb] <;> omega

theorem readUntilZero_append (a rest : List Nat) (ha : 0 ∉ a) :
    readUntilZero (a ++ 0 :: rest) = (a ++ [0], rest) := by
  induction a with
  | nil => simp [readUntilZero]
  | cons b r ih =>
    have hb : b ≠ 0 := by intro hb; exact ha (by simp [hb])
    have hr : 0 ∉ r := fun hm => ha (List.mem_cons_of_mem _ hm)
    simp [readUntilZero, hb, ih hr]

theorem readUntilZero_no_zero (a : List Nat) (ha : 0 ∉ a) :
    readUntilZero a = (a, []) := by
  induction a with
  | nil => rfl
  | cons b r ih =>
    have hb : b ≠ 0 := by intro hb; exact ha (by simp [hb])
    have hr : 0 ∉ r := fun hm => ha (List.mem_cons_of_mem _ hm)
    simp [readUntilZero, hb, ih hr]

/-- Reading a null-terminated field: the count includes the terminator. -/
theorem read_c_string_append (a rest : List Nat) (ha : 0 ∉ a)
    (hv : utf8Valid a = true) :
    read_c_string (a ++ 0 :: rest) = .ok ((a.length + 1, a), rest) := by
  simp [read_c_string, readUntilZero_append a rest ha, hv,
    List.dropLast_concat]

theorem read_c_string_rest_length (s : List Nat) (n : Nat) (v rest : List Nat)
    (h : read_c_string s = .ok ((n, v), rest)) : rest.length ≤ s.length := by
  have := readUntilZero_length s
  unfold read_c_string at h
  by_cases hv : utf8Valid (readUntilZero s).1.dropLast <;> simp [hv] at h
  rcases h with ⟨⟨h1, h2⟩, h3⟩
  subst h3
  omega

theorem read_c_string_rest_lt (s : List Nat) (n : Nat) (v rest : List Nat)
    (h : read_c_string s = .ok ((n, v), rest)) (hv : v ≠ []) :
    rest.length < s.length := by
  have hl := readUntilZero_length s
  unfold read_c_string at h
  by_cases hva : utf8Valid (readUntilZero s).1.dropLast <;> simp [hva] at h
  rcases h with ⟨⟨h1, h2⟩, h3⟩
  subst h3
  subst h2
  have : (readUntilZero s).1 ≠ [] := by
    intro hz; rw [hz] at hv; simp at hv
  have : 0 < (readUntilZero s).1.length := List.length_pos.mpr this
  omega

theorem writeAt_at_end (d bs : List Nat) : writeAt d d.length bs = d ++ bs := by
  simp [writeAt]

theorem wWrite_at_end (st : WState) (bs : List Nat)
    (h : st.pos = st.data.length) :
    wWrite st bs = ⟨st.data ++ bs, st.pos + bs.length⟩ := by
  simp [wWrite, h, writeAt_at_end]

set_option maxRecDepth 8000 in
/-- Sanity check against the value asserted in the crate's own test suite
for the content "hello". -/
theorem crc32_hello : crc32 (asciiOf "hello") = 907060870 := by decide

theorem string_to_type_of_type (ty : AddonType) :
    string_to_type (type_to_string ty) = some ty := by
  cases ty <;> decide

theorem string_to_tag_of_tag (t : AddonTag) :
    string_to_tag (tag_to_string t) = some t := by
  cases t <;> decide

theorem parseStringBody_rest_lt (s : List Nat) (c rest : List Nat)
    (h : parseStringBody s = some (c, rest)) : rest.length < s.length := by
  induction s using parseStringBody.induct generalizing c rest with
  | case1 => simp [parseStringBody] at h
  | case2 r =>
    rw [parseStringBody.eq_def] at h
    simp at h
    rcases h with ⟨h1, h2⟩
    subst h2
    simp
  | case3 hne => rw [parseStringBody.eq_def] at h; simp at h
  | case4 e r2 he hne ih =>
    cases hp : parseStringBody r2 with
    | none => rw [parseStringBody.eq_def] at h; simp [he, hp] at h
    | some p =>
      rw [parseStringBody.eq_def] at h
      simp [he, hp] at h
      rcases h with ⟨h1, h2⟩
      have hlt := ih p.1 p.2 (by rw [hp])
      rw [← h2]
      simp
      omega
  | case5 e r2 hne2 hne =>
    rw [parseStringBody.eq_def] at h
    simp [hne2] at h
  | case6 b r h34 h92 ih =>
    cases hp : parseStringBody r with
    | none => rw [parseStringBody.eq_def] at h; simp [h34, h92, hp] at h
    | some p =>
      rw [parseStringBody.eq_def] at h
      simp [h34, h92, hp] at h
      rcases h with ⟨h1, h2⟩
      have hlt := ih p.1 p.2 (by rw [hp])
      rw [← h2]
      simp
      omega

theorem parseString_rest_lt (s : List Nat) (c rest : List Nat)
    (h : parseString s = some (c, rest)) : rest.length < s.length := by
  match s, h with
  | 34 :: r, h =>
    have := parseStringBody_rest_lt r c rest h
    simpa using Nat.lt_succ_of_lt this

/-- Round trip of the escaped string encoding: parsing the escaped bytes
up to the closing quote recovers the original bytes. -/
theorem parseStringBody_escape (c rest : List Nat) :
    parseStringBody (jsonEscape c ++ 34 :: rest) = some (c, rest) := by
  induction c with
  | nil =>
    rw [jsonEscape, List.nil_append, parseStringBody.eq_def]
    simp
  | cons b r ih =>
    by_cases hb : b = 34 ∨ b = 92
    · rw [jsonEscape, if_pos hb, List.cons_append, List.cons_append,
        parseStringBody.eq_def]
      simp [hb, ih]
    · have hb1 : b ≠ 34 := fun hx => hb (Or.inl hx)
      have hb2 : b ≠ 92 := fun hx => hb (Or.inr hx)
      rw [jsonEscape, if_neg hb, List.cons_append, parseStringBody.eq_def]
      simp [hb1, hb2, ih]

theorem parseString_jsonString (c rest : List Nat) :
    parseString (jsonString c ++ rest) = some (c, rest) := by
  simp only [jsonString, List.cons_append, List.append_assoc]
  rw [parseString]
  exact parseStringBody_escape c rest

theorem parseExact_append (lit rest : List Nat) :
    parseExact lit (lit ++ rest) = some rest := by
  induction lit with
  | nil => rfl
  | cons b r ih => simp [parseExact, ih]

theorem parseTagsMore_inv (ts : List (List Nat)) (rest : List Nat) :
    parseTagsMore (tagsJsonMore ts ++ rest) = some (ts, rest) := by
  induction ts generalizing rest with
  | nil =>
    rw [tagsJsonMore]
    rw [parseTagsMore.eq_def]
    simp
  | cons t r ih =>
    have hps : parseString (jsonString t ++ tagsJsonMore r ++ rest)
        = some (t, tagsJsonMore r ++ rest) := by
      rw [List.append_assoc]
      exact parseString_jsonString t (tagsJsonMore r ++ rest)
    rw [tagsJsonMore, List.cons_append, parseTagsMore.eq_def]
    simp only []
    rw [if_neg (by omega)]
    simp only [if_true]
    split
    · rename_i heq
      rw [heq] at hps
      exact absurd hps (by simp)
    · rename_i t2 s2 heq
      rw [heq] at hps
      simp only [Option.some.injEq, Prod.mk.injEq] at hps
      rcases hps with ⟨h1, h2⟩
      subst h1
      subst h2
      rw [ih]

theorem parseTagItems_inv (ts : List (List Nat)) (rest : List Nat) :
    parseTagItems (tagsJson ts ++ rest) = some (ts, rest) := by
  cases ts with
  | nil =>
    rw [tagsJson]
    rw [parseTagItems.eq_def]
    simp
  | cons t r =>
    have hps : parseString (jsonString t ++ tagsJsonMore r ++ rest)
        = some (t, tagsJsonMore r ++ rest) := by
      rw [List.append_assoc]
      exact parseString_jsonString t (tagsJsonMore r ++ rest)
    rw [tagsJson]
    have hshape : jsonString t ++ tagsJsonMore r ++ rest
        = 34 :: (jsonEscape t ++ 34 :: (tagsJsonMore r ++ rest)) := by
      simp [jsonString]
    rw [hshape] at hps ⊢
    rw [parseTagItems.eq_def]
    simp [hps, parseTagsMore_inv]

/-- The modelled JSON codec is a codec: decoding an encoded record with a
present title recovers the record exactly. -/
theorem from_json_to_json (t desc ty : List Nat) (tags : List (List Nat)) :
    AddonMetadata.from_json (AddonMetadata.to_json ⟨some t, desc, ty, tags⟩)
      = some ⟨some t, desc, ty, tags⟩ := by
  rw [AddonMetadata.to_json]
  simp only [List.append_assoc]
  have hnull : parseExact litNull (jsonString t ++ (keyDesc ++ (jsonString desc
      ++ (keyType ++ (jsonString ty ++ (keyTags ++ (tagsJson tags ++ [125])))))))
      = none := by
    rw [jsonString]
    simp [litNull, parseExact]
  rw [AddonMetadata.from_json.eq_def]
  unfold parseTitle
  simp [parseExact_append, hnull, parseString_jsonString, parseTagItems_inv]

theorem read_u32_rest_length (s : List Nat) (n v : Nat) (rest : List Nat)
    (h : read_u32 s = .ok ((n, v), rest)) :
    rest.length + 4 = s.length ∧ 4 ≤ s.length := by
  unfold read_u32 at h
  by_cases hl : s.length < 4 <;> simp [hl] at h
  rcases h with ⟨h1, h2⟩
  subst h2
  simp
  omega

theorem read_u64_rest_length (s : List Nat) (n v : Nat) (rest : List Nat)
    (h : read_u64 s = .ok ((n, v), rest)) :
    rest.length + 8 = s.length ∧ 8 ≤ s.length := by
  unfold read_u64 at h
  by_cases hl : s.length < 8 <;> simp [hl] at h
  rcases h with ⟨h1, h2⟩
  subst h2
  simp
  omega

/-! Claim theorems and their supporting lemmas. -/

theorem read_gma_uncompressed (d : List Nat → Option (List Nat))
    (s : List Nat) (h4 : s.take 4 = IDENT) (hlen : 4 ≤ s.length) :
    read_gma d s
      = match read_gma_inner false s with
        | .error e => .err e
        | .ok g => .ok g := by
  unfold read_gma get_reader_stream
  rw [if_neg (by omega), if_pos h4]

theorem read_ident_append (x : List Nat) : read_ident (IDENT ++ x) = .ok x := by
  unfold read_ident
  rw [if_neg (by simp [IDENT]), if_pos (by simp [IDENT])]
  simp [IDENT]

/-- Claim C2 (code bug evidence): evaluating GMABuilder::addon_tag at the
failing input.  Adding Fun, Roleplay, Scenic in order leaves the tag list
[Scenic, Fun]: the previously newest tag Roleplay is evicted and the
oldest tag Fun survives, contradicting the claimed final set of the two
newest tags (and the method's own doc comment, which promises that adding
a third tag replaces the oldest one).  Adding only Fun yields [Fun] as
claimed. -/
theorem c2_tag_eviction_eval :
    tagsList ((((GMABuilder.new 0).addon_tag .Fun).addon_tag
        .Roleplay).addon_tag .Scenic).addon_tags
      = [AddonTag.Scenic, AddonTag.Fun]
    ∧ AddonTag.Roleplay ∉
        tagsList ((((GMABuilder.new 0).addon_tag .Fun).addon_tag
          .Roleplay).addon_tag .Scenic).addon_tags
    ∧ tagsList (((GMABuilder.new 0).addon_tag .Fun).addon_tags)
      = [AddonTag.Fun] := by
  decide

/-- Claim C3 (code bug evidence): for every stream of at least 4 bytes
whose first 4 bytes are not the magic identifier and on which the
decompressor fails, loading panics (the source unwraps the result of
lzma_decompress) instead of returning the CompressionError variant that
the error enum declares for this situation. -/
theorem c3_decompress_unwrap_panics (d : List Nat → Option (List Nat))
    (s : List Nat) (hlen : 4 ≤ s.length) (hmagic : s.take 4 ≠ IDENT)
    (hfail : d s = none) : read_gma d s = .panicked := by
  unfold read_gma get_reader_stream
  rw [if_neg (by omega), if_neg hmagic, hfail]

/-- Witness for c3_decompress_unwrap_panics at the stream 0 1 2 3 with a
decompressor that fails on every input. -/
theorem c3_decompress_unwrap_panics_witness :
    4 ≤ ([0, 1, 2, 3] : List Nat).length
    ∧ ([0, 1, 2, 3] : List Nat).take 4 ≠ IDENT
    ∧ read_gma (fun _ => none) [0, 1, 2, 3] = .panicked :=
  ⟨by decide, by decide,
    c3_decompress_unwrap_panics (fun _ => none) [0, 1, 2, 3]
      (by decide) (by decide) rfl⟩

/-- Claim C8: read_version accepts exactly the version bytes in the fixed
valid set 1, 2, 3 and rejects any other byte with InvalidVersion carrying
the found byte; the rejection propagates through load so opening such an
archive fails with that error. -/
theorem c8_version_validation (v : Nat) (rest : List Nat) :
    (v ∈ VALID_VERSIONS → read_version (v :: rest) = .ok (v, rest))
    ∧ (v ∉ VALID_VERSIONS →
        read_version (v :: rest) = .error (.InvalidVersion v)
        ∧ ∀ (d : List Nat → Option (List Nat)),
            read_gma d (IDENT ++ v :: rest) = .err (.InvalidVersion v)) := by
  constructor
  · intro h
    simp [read_version, read_u8, h]
  · intro h
    constructor
    · simp [read_version, read_u8, h]
    · intro d
      have hv : read_version (v :: rest) = .error (.InvalidVersion v) := by
        simp [read_version, read_u8, h]
      rw [read_gma_uncompressed d _ (by simp [IDENT]) (by simp [IDENT])]
      unfold read_gma_inner
      rw [read_ident_append]
      simp [hv]

/-- Witness for c8_version_validation: version byte 2 is accepted, version
byte 4 is rejected with InvalidVersion 4 both by read_version and by the
whole load pipeline. -/
theorem c8_version_validation_witness :
    read_version [2] = .ok (2, [])
    ∧ read_version [4] = .error (.InvalidVersion 4)
    ∧ read_gma (fun _ => none) (IDENT ++ [4]) = .err (.InvalidVersion 4) :=
  ⟨(c8_version_validation 2 []).1 (by decide),
    ((c8_version_validation 4 []).2 (by decide)).1,
    ((c8_version_validation 4 []).2 (by decide)).2 (fun _ => none)⟩

/-- Claim C6 (corrected): read_c_string over a field with a null
terminator behaves as claimed: it consumes the field plus terminator,
returns the field bytes when they are valid UTF-8 and fails with the
UTF8Error text-encoding error otherwise.  At end-of-stream without a
terminator, however, the source pops the last byte read unconditionally,
so the final content byte is dropped and validity is checked on the
remainder only. -/
theorem c6_read_c_string (a rest : List Nat) (ha : 0 ∉ a) :
    read_c_string (a ++ 0 :: rest)
      = (if utf8Valid a then .ok ((a.length + 1, a), rest)
         else .error .UTF8Error)
    ∧ read_c_string a
      = (if utf8Valid a.dropLast then .ok ((a.length, a.dropLast), [])
         else .error .UTF8Error) := by
  constructor
  · by_cases hv : utf8Valid a
    · rw [if_pos hv]
      exact read_c_string_append a rest ha hv
    · rw [if_neg hv]
      simp [read_c_string, readUntilZero_append a rest ha,
        List.dropLast_concat, hv]
  · by_cases hv : utf8Valid a.dropLast
    · rw [if_pos hv]
      simp [read_c_string, readUntilZero_no_zero a ha, hv]
    · rw [if_neg hv]
      simp [read_c_string, readUntilZero_no_zero a ha, hv]

/-- Witness for c6_read_c_string at the field bytes H i. -/
theorem c6_read_c_string_witness :
    read_c_string ([72, 105] ++ 0 :: [7])
      = (if utf8Valid [72, 105]
         then .ok (([72, 105].length + 1, [72, 105]), [7])
         else .error .UTF8Error) :=
  (c6_read_c_string [72, 105] [7] (by decide)).1

/-- Claim C6 counterexample: on the stream A B with no terminator the
claim requires the decoded string A B (the consumed bytes, which are
valid UTF-8) with count 2, but the source drops the final byte and
returns only A; on the lone invalid byte 255 the claim requires the
InvalidUTF8 failure, but the source drops the byte and succeeds with the
empty string. -/
theorem c6_counterexample :
    read_c_string [65, 66] = .ok ((2, [65]), [])
    ∧ read_c_string [65, 66] ≠ .ok ((2, [65, 66]), [])
    ∧ read_c_string [255] = .ok ((1, []), [])
    ∧ read_c_string [255] ≠ .error .UTF8Error := by
  have h1 : read_c_string [65, 66] = .ok ((2, [65]), []) := rfl
  have h2 : read_c_string [255] = .ok ((1, []), []) := rfl
  refine ⟨h1, ?_, h2, ?_⟩
  · intro hc
    rw [h1] at hc
    simp at hc
  · intro hc
    rw [h2] at hc
    simp at hc

theorem read_file_entries_go_offsets (entries : List FileEntry)
    (s : List Nat) (cur : Nat) (rest : List Nat)
    (h : read_file_entries_go s cur = .ok (entries, rest)) :
    ∀ i (hi : i < entries.length),
      (entries.get ⟨i, hi⟩).offset = cur + sumSizes (entries.take i) := by
  induction entries generalizing s cur rest with
  | nil =>
    intro i hi
    simp at hi
  | cons fe entries2 ih =>
    intro i hi
    rw [read_file_entries_go.eq_def] at h
    split at h
    · simp at h
    · split at h
      · simp at h
      · split at h
        · simp at h
        · split at h
          · simp at h
          · split at h
            · simp at h
            · split at h
              · simp at h
              · rename_i a1 idx sA hidx hne nB fnm sB hcs a2 fsz sC h64 a3 crcv sD h32 xE ents sE hrec
                simp only [Except.ok.injEq, Prod.mk.injEq] at h
                rcases h with ⟨h1, h2⟩
                injection h1 with hfe hents
                subst hents
                subst h2
                match i with
                | 0 =>
                  simp [← hfe, sumSizes]
                | j + 1 =>
                  have hih := ih sD (cur + fsz) sE hrec j (by
                    have := hi
                    simp at this
                    omega)
                  simp only [List.get, List.take, sumSizes]
                  rw [hih, ← hfe]
                  simp
                  omega

/-- Claim C5: read_entry takes the single owned stream out of the handle,
seeks to file_data_start + entry.offset, yields at most entry.size bytes
(exactly the bytes of that slice), and afterwards the stream is back in
the handle unchanged so further read_entry calls see the same state; and
every entry parsed from a table carries as its offset the cumulative sum
of the sizes of the preceding entries in table order, counted from the
position right after the terminating 0-index marker. -/
theorem c5_read_entry_spec :
    (∀ (g : GMAFile) (e : FileEntry),
      (g.read_entry e).2 = g
      ∧ (g.read_entry e).1.length ≤ e.filesize
      ∧ (g.read_entry e).1
          = (g.stream.drop (g.file_data_start + e.offset)).take e.filesize)
    ∧ (∀ (s : List Nat) (entries : List FileEntry) (rest : List Nat),
        read_file_entries s = .ok (entries, rest) →
        ∀ i (hi : i < entries.length),
          (entries.get ⟨i, hi⟩).offset = sumSizes (entries.take i)) := by
  constructor
  · intro g e
    refine ⟨rfl, ?_, rfl⟩
    simp [GMAFile.read_entry]
  · intro s entries rest h i hi
    unfold read_file_entries at h
    have := read_file_entries_go_offsets entries s 0 rest h i hi
    simpa using this

/-- Witness for c5_read_entry_spec: a two-entry table whose second entry
sits at offset 5 (the size of the first), and a concrete handle whose
entry slice is returned with the handle unchanged. -/
theorem c5_read_entry_spec_witness :
    (GMAFile.read_entry
        ⟨3, 0, 0, [65], [], none, [], [66], [], 2, false, [9, 9, 7, 8]⟩
        ⟨[70], 2, 5, 0⟩).1 = [7, 8]
    ∧ (GMAFile.read_entry
        ⟨3, 0, 0, [65], [], none, [], [66], [], 2, false, [9, 9, 7, 8]⟩
        ⟨[70], 2, 5, 0⟩).2
      = ⟨3, 0, 0, [65], [], none, [], [66], [], 2, false, [9, 9, 7, 8]⟩
    ∧ ([⟨[70], 5, 9, 0⟩, ⟨[71], 3, 4, 5⟩].get
        ⟨1, by decide⟩ : FileEntry).offset
      = sumSizes ([⟨[70], 5, 9, 0⟩, ⟨[71], 3, 4, 5⟩].take 1) := by
  refine ⟨?_, ?_, ?_⟩
  · have h := (c5_read_entry_spec.1
      ⟨3, 0, 0, [65], [], none, [], [66], [], 2, false, [9, 9, 7, 8]⟩
      ⟨[70], 2, 5, 0⟩).2.2
    rw [h]
    decide
  · exact (c5_read_entry_spec.1
      ⟨3, 0, 0, [65], [], none, [], [66], [], 2, false, [9, 9, 7, 8]⟩
      ⟨[70], 2, 5, 0⟩).1
  · have htab : read_file_entries
        ([1,0,0,0] ++ [70,0] ++ [5,0,0,0,0,0,0,0] ++ [9,0,0,0]
          ++ [2,0,0,0] ++ [71,0] ++ [3,0,0,0,0,0,0,0] ++ [4,0,0,0]
          ++ [0,0,0,0])
        = .ok ([⟨[70], 5, 9, 0⟩, ⟨[71], 3, 4, 5⟩], []) := by
      unfold read_file_entries
      rw [read_file_entries_go.eq_def]
      simp [read_u32, read_u64, read_c_string, readUntilZero,
        utf8Valid, utf8Run, utf8Next, leVal]
      rw [read_file_entries_go.eq_def]
      simp [read_u32, read_u64, read_c_string, readUntilZero,
        utf8Valid, utf8Run, utf8Next, leVal]
      rw [read_file_entries_go.eq_def]
      simp [read_u32, leVal]
    exact c5_read_entry_spec.2 _ _ _ htab 1 (by decide)

/-- Claim C9: the placeholder offsets recorded by pass 1 and the patch
records produced by pass 2 both number exactly one per file source, so
the equality the source asserts before the patch pass always holds. -/
theorem c9_patch_pass_consistency :
    ∀ (st : WState) (i : Nat) (fs : List BuilderFile),
      (∀ st2 offs, writeEntriesPass1 st i fs = .ok (st2, offs) →
        offs.length = fs.length)
      ∧ (writeContentsPass2 st fs).2.length = fs.length
      ∧ (∀ st2 offs st3, writeEntriesPass1 st i fs = .ok (st2, offs) →
          (writeContentsPass2 st3 fs).2.length = offs.length) := by
  have hp1 : ∀ (fs : List BuilderFile) (st : WState) (i : Nat) st2 offs,
      writeEntriesPass1 st i fs = .ok (st2, offs) →
      offs.length = fs.length := by
    intro fs
    induction fs with
    | nil =>
      intro st i st2 offs h
      simp [writeEntriesPass1] at h
      rw [h.2]
      rfl
    | cons f fs ih =>
      intro st i st2 offs h
      unfold writeEntriesPass1 at h
      split at h
      · simp at h
      · split at h
        · simp at h
        · rename_i stA off hA stB offs2 hB
          simp only [Except.ok.injEq, Prod.mk.injEq] at h
          rcases h with ⟨h1, h2⟩
          rw [← h2]
          simp [ih _ _ _ _ hB]
  have hp2 : ∀ (fs : List BuilderFile) (st : WState),
      (writeContentsPass2 st fs).2.length = fs.length := by
    intro fs
    induction fs with
    | nil => intro st; simp [writeContentsPass2]
    | cons f fs ih => intro st; simp [writeContentsPass2, ih]
  intro st i fs
  refine ⟨fun st2 offs h => hp1 fs st i st2 offs h, hp2 fs st, ?_⟩
  intro st2 offs st3 h
  rw [hp2 fs st3, hp1 fs st i st2 offs h]

/-- Witness for c9_patch_pass_consistency on a concrete two-file list:
pass 1 records two placeholder offsets and pass 2 produces two patch
records. -/
theorem c9_patch_pass_consistency_witness :
    ([6, 24] : List Nat).length = ([⟨[70], [1, 2]⟩, ⟨[71], [3]⟩] : List BuilderFile).length
    ∧ (writeContentsPass2 ⟨[], 0⟩ [⟨[70], [1, 2]⟩, ⟨[71], [3]⟩]).2.length
      = ([⟨[70], [1, 2]⟩, ⟨[71], [3]⟩] : List BuilderFile).length := by
  constructor
  · exact (c9_patch_pass_consistency ⟨[], 0⟩ 0 [⟨[70], [1, 2]⟩, ⟨[71], [3]⟩]).1
      ⟨[1, 0, 0, 0, 70, 0, 0, 0, 0, 0, 0, 0, 0, 0, 0, 0, 0, 0, 2, 0, 0, 0, 71, 0,
        0, 0, 0, 0, 0, 0, 0, 0, 0, 0, 0, 0], 36⟩ [6, 24] (by rfl)
  · exact (c9_patch_pass_consistency ⟨[], 0⟩ 0 [⟨[70], [1, 2]⟩, ⟨[71], [3]⟩]).2.1

theorem metadata_fields_tags_le_two (m : List Nat) :
    (metadata_fields m).2.2.length ≤ 2 := by
  unfold metadata_fields
  split
  · rename_i md heq
    cases h1 : (md.get_tags).1 <;> cases h2 : (md.get_tags).2 <;>
      simp [h1, h2]
  · simp

theorem read_gma_inner_tags (c : Bool) (es : List Nat) (g : GMAFile)
    (h : read_gma_inner c es = .ok g) :
    ∃ m, g.addon_tags = (metadata_fields m).2.2 := by
  unfold read_gma_inner at h
  split at h
  · simp at h
  · split at h
    · simp at h
    · split at h
      · simp at h
      · split at h
        · simp at h
        · split at h
          · simp at h
          · split at h
            · simp at h
            · split at h
              · simp at h
              · split at h
                · simp at h
                · split at h
                  · simp at h
                  · split at h
                    · simp at h
                    · simp only [Except.ok.injEq] at h
                      subst h
                      exact ⟨_, rfl⟩

/-- Claim C10: every archive the reader opens successfully exposes at
most two typed tags, even when the embedded metadata text lists more tag
names: get_tags inspects only the first two name slots and unrecognized
names are dropped rather than counted. -/
theorem c10_tag_count_invariant (d : List Nat → Option (List Nat))
    (s : List Nat) (g : GMAFile) (h : read_gma d s = .ok g) :
    g.addon_tags.length ≤ 2 := by
  unfold read_gma at h
  split at h
  · simp at h
  · simp at h
  · split at h
    · simp at h
    · rename_i g2 heq
      simp only [POutcome.ok.injEq] at h
      subst h
      obtain ⟨m, hm⟩ := read_gma_inner_tags _ _ _ heq
      rw [hm]
      exact metadata_fields_tags_le_two m

set_option maxHeartbeats 4000000 in
set_option maxRecDepth 100000 in
/-- Witness for c10_tag_count_invariant: a concrete archive whose metadata
text lists the tag name fun three times is opened successfully with the
typed tag list [Fun, Fun] of length 2. -/
theorem c10_tag_count_invariant_witness :
    read_gma (fun _ => none) c10bytes
      = .ok ⟨3, 0, 0, [65], [100], some .Tool, [.Fun, .Fun], [66], [], 107,
          false, c10bytes⟩
    ∧ (⟨3, 0, 0, [65], [100], some .Tool, [.Fun, .Fun], [66], [], 107,
          false, c10bytes⟩ : GMAFile).addon_tags.length ≤ 2 := by
  have heval : read_gma (fun _ => none) c10bytes
      = .ok ⟨3, 0, 0, [65], [100], some .Tool, [.Fun, .Fun], [66], [], 107,
          false, c10bytes⟩ := by
    simp [read_gma, get_reader_stream, IDENT, read_gma_inner, read_ident,
      read_version, VALID_VERSIONS, read_u8, read_u64, read_u32, leVal,
      read_required_content, read_c_string, readUntilZero, utf8Valid, utf8Run,
      utf8Next, read_file_entries, read_file_entries_go, metadata_fields,
      AddonMetadata.from_json, keyTitle, keyDesc, keyType, keyTags, litNull,
      parseExact, parseTitle, parseString, parseStringBody, parseTagItems,
      parseTagsMore, AddonMetadata.get_tags, AddonMetadata.get_type,
      AddonMetadata.get_description, string_to_tag, string_to_type,
      to_lowercase, asciiOf, c10bytes]
  exact ⟨heval, c10_tag_count_invariant (fun _ => none) c10bytes _ heval⟩

theorem wWrite_end (d bs : List Nat) :
    wWrite ⟨d, d.length⟩ bs = ⟨d ++ bs, (d ++ bs).length⟩ := by
  simp [wWrite, writeAt_at_end]

theorem write_c_string_end (d s : List Nat) (hs : 0 ∉ s) :
    write_c_string ⟨d, d.length⟩ s
      = .ok ⟨d ++ s ++ [0], (d ++ s ++ [0]).length⟩ := by
  simp [write_c_string, hs, wWrite, writeAt_at_end]

theorem writeEntriesPass1_spec (fs : List BuilderFile) :
    ∀ (d : List Nat) (i : Nat), (∀ f ∈ fs, 0 ∉ f.filename) →
      writeEntriesPass1 ⟨d, d.length⟩ i fs
        = .ok (⟨d ++ tableP i fs, (d ++ tableP i fs).length⟩,
            offsetsP d.length i fs) := by
  induction fs with
  | nil =>
    intro d i hf
    simp [writeEntriesPass1, tableP, offsetsP]
  | cons f fs ih =>
    intro d i hf
    have hf0 : 0 ∉ f.filename := hf f (by simp)
    have hfr : ∀ g ∈ fs, 0 ∉ g.filename := fun g hg => hf g (by simp [hg])
    have harith : (d ++ entryHeaderP (i + 1) f.filename).length
        = d.length + 4 + f.filename.length + 1 + 12 := by
      simp [entryHeaderP, u32Bytes, u64Bytes, leBytes_length]
      omega
    have ihi := ih (d ++ entryHeaderP (i + 1) f.filename) (i + 1) hfr
    unfold writeEntriesPass1 write_incomplete_file_entry
    simp only [write_u32, write_u64, wWrite_end]
    rw [write_c_string_end _ _ hf0]
    simp only [wWrite_end]
    have hD3 : d ++ u32Bytes (i + 1) ++ f.filename ++ [0] ++ u64Bytes 0 ++ u32Bytes 0
        = d ++ entryHeaderP (i + 1) f.filename := by
      simp [entryHeaderP]
    rw [hD3, ihi]
    have hoff : (d ++ u32Bytes (i + 1) ++ f.filename ++ [0]).length
        = d.length + 4 + f.filename.length + 1 := by
      simp [u32Bytes, leBytes_length]
      omega
    simp only [hoff, harith]
    simp [tableP, offsetsP, List.append_assoc]

theorem writeContentsPass2_spec (fs : List BuilderFile) :
    ∀ d : List Nat, writeContentsPass2 ⟨d, d.length⟩ fs
      = (⟨d ++ contentsOf fs, (d ++ contentsOf fs).length⟩, infosOf fs) := by
  induction fs with
  | nil =>
    intro d
    simp [writeContentsPass2, contentsOf, infosOf]
  | cons f fs ih =>
    intro d
    unfold writeContentsPass2 write_file_contents
    simp only [wWrite_end]
    rw [ih (d ++ f.contents)]
    simp [contentsOf, infosOf, List.append_assoc]

theorem writeAt_mid (A B C bs : List Nat) (hlen : bs.length = B.length) :
    writeAt (A ++ (B ++ C)) A.length bs = A ++ (bs ++ C) := by
  unfold writeAt
  rw [List.take_left, hlen, List.drop_append, List.drop_left]
  simp [List.append_assoc]

theorem applyPatches_spec (fs : List BuilderFile) :
    ∀ (i : Nat) (pre mid : List Nat) (pos0 : Nat),
      (applyPatches ⟨pre ++ (tableP i fs ++ mid), pos0⟩
          ((offsetsP pre.length i fs).zip (infosOf fs))).data
        = pre ++ (tableF i fs ++ mid) := by
  induction fs with
  | nil =>
    intro i pre mid pos0
    simp [tableP, tableF, offsetsP, infosOf, applyPatches]
  | cons f fs ih =>
    intro i pre mid pos0
    have hform : pre ++ (tableP i (f :: fs) ++ mid)
        = (pre ++ (u32Bytes (i + 1) ++ (f.filename ++ [0])))
          ++ (u64Bytes 0
            ++ (u32Bytes 0 ++ (tableP (i + 1) fs ++ mid))) := by
      simp [tableP, entryHeaderP]
    have hoff : pre.length + 4 + f.filename.length + 1
        = (pre ++ (u32Bytes (i + 1) ++ (f.filename ++ [0]))).length := by
      simp [u32Bytes, leBytes_length]
      omega
    simp only [offsetsP, infosOf, List.zip_cons_cons, applyPatches,
      apply_file_entry_patch, write_u64, write_u32, wWrite]
    rw [hform, hoff]
    rw [writeAt_mid _ (u64Bytes 0) _ (u64Bytes f.contents.length)
      (by simp [u64Bytes, leBytes_length])]
    have hoff2 : (pre ++ (u32Bytes (i + 1) ++ (f.filename ++ [0]))).length
          + (u64Bytes f.contents.length).length
        = ((pre ++ (u32Bytes (i + 1) ++ (f.filename ++ [0])))
            ++ u64Bytes f.contents.length).length := by
      simp
      omega
    have hform2 : (pre ++ (u32Bytes (i + 1) ++ (f.filename ++ [0])))
          ++ (u64Bytes f.contents.length
            ++ (u32Bytes 0 ++ (tableP (i + 1) fs ++ mid)))
        = ((pre ++ (u32Bytes (i + 1) ++ (f.filename ++ [0])))
            ++ u64Bytes f.contents.length)
          ++ (u32Bytes 0 ++ (tableP (i + 1) fs ++ mid)) := by
      simp [List.append_assoc]
    rw [hform2, hoff2]
    rw [writeAt_mid _ (u32Bytes 0) _ (u32Bytes (crc32 f.contents))
      (by simp [u32Bytes, leBytes_length])]
    have hform3 : ((pre ++ (u32Bytes (i + 1) ++ (f.filename ++ [0])))
            ++ u64Bytes f.contents.length)
          ++ (u32Bytes (crc32 f.contents) ++ (tableP (i + 1) fs ++ mid))
        = (pre ++ entryHeaderF (i + 1) f) ++ (tableP (i + 1) fs ++ mid) := by
      simp [entryHeaderF, List.append_assoc]
    have hbase : (pre ++ (u32Bytes (i + 1) ++ (f.filename ++ [0]))).length + 12
        = (pre ++ entryHeaderF (i + 1) f).length := by
      simp [entryHeaderF, u32Bytes, u64Bytes, leBytes_length]
      omega
    rw [hform3, hbase]
    have hzip : List.zipWith Prod.mk
          (offsetsP (pre ++ entryHeaderF (i + 1) f).length (i + 1) fs)
          (infosOf fs)
        = (offsetsP (pre ++ entryHeaderF (i + 1) f).length (i + 1) fs).zip
            (infosOf fs) := rfl
    rw [hzip]
    rw [ih (i + 1) (pre ++ entryHeaderF (i + 1) f) mid _]
    simp [tableF, List.append_assoc]

theorem offsetsP_length (fs : List BuilderFile) :
    ∀ base i, (offsetsP base i fs).length = fs.length := by
  induction fs with
  | nil => intro base i; simp [offsetsP]
  | cons f fs ih => intro base i; simp [offsetsP, ih]

theorem infosOf_length (fs : List BuilderFile) :
    (infosOf fs).length = fs.length := by
  induction fs with
  | nil => simp [infosOf]
  | cons f fs ih => simp [infosOf, ih]

theorem write_to_gen_layout (version steamid timestamp : Nat)
    (name description author : List Nat) (ty : AddonType)
    (slots : Option AddonTag × Option AddonTag)
    (files : List BuilderFile) (compression : Option Bool)
    (hname : 0 ∉ name)
    (hjson : 0 ∉ (AddonMetadata.new name description ty (tagsList slots)).to_json)
    (hauthor : 0 ∉ author)
    (hfiles : ∀ f ∈ files, 0 ∉ f.filename) :
    write_to_gen ⟨some version, some steamid, some timestamp, some name,
        some description, some author, files, ty, slots, compression⟩
      = .ok (headerOf version steamid timestamp name
            ((AddonMetadata.new name description ty (tagsList slots)).to_json)
            author
          ++ (tableF 0 files ++ (u32Bytes 0 ++ contentsOf files))) := by
  unfold write_to_gen
  simp only []
  rw [show (⟨[], 0⟩ : WState) = ⟨[], List.length []⟩ from rfl]
  simp only [write_u8, write_u64, write_u32]
  rw [wWrite_end, wWrite_end, wWrite_end, wWrite_end, wWrite_end]
  rw [write_c_string_end _ _ hname]
  simp only []
  rw [write_c_string_end _ _ hjson]
  simp only []
  rw [write_c_string_end _ _ hauthor]
  simp only []
  rw [wWrite_end]
  rw [writeEntriesPass1_spec files _ 0 hfiles]
  simp only []
  rw [wWrite_end]
  rw [writeContentsPass2_spec files _]
  simp only []
  rw [if_pos (by rw [infosOf_length, offsetsP_length])]
  set P := [] ++ IDENT ++ u8Bytes version ++ u64Bytes steamid
      ++ u64Bytes timestamp ++ u8Bytes 0 ++ name ++ [0]
      ++ (AddonMetadata.new name description ty (tagsList slots)).to_json
      ++ [0] ++ author ++ [0] ++ u32Bytes 1 with hP
  have hregroup : P ++ tableP 0 files ++ u32Bytes 0 ++ contentsOf files
      = P ++ (tableP 0 files ++ (u32Bytes 0 ++ contentsOf files)) := by
    simp [List.append_assoc]
  rw [hregroup]
  rw [applyPatches_spec files 0 P (u32Bytes 0 ++ contentsOf files) _]
  rw [hP]
  simp [headerOf, List.append_assoc]

theorem crc32Bit_lt (c : Nat) (h : c < 2 ^ 32) : crc32Bit c < 2 ^ 32 := by
  unfold crc32Bit
  split
  · exact Nat.xor_lt_two_pow (by omega) (by norm_num)
  · omega

theorem crc32Byte_lt (c b : Nat) (h : c < 2 ^ 32) : crc32Byte c b < 2 ^ 32 := by
  unfold crc32Byte
  have h0 : c ^^^ b % 256 < 2 ^ 32 :=
    Nat.xor_lt_two_pow h (by have := Nat.mod_lt b (show 0 < 256 by norm_num); omega)
  exact crc32Bit_lt _ (crc32Bit_lt _ (crc32Bit_lt _ (crc32Bit_lt _ (crc32Bit_lt _
    (crc32Bit_lt _ (crc32Bit_lt _ (crc32Bit_lt _ h0)))))))

theorem crc32_foldl_lt (bs : List Nat) : ∀ c, c < 2 ^ 32 →
    bs.foldl crc32Byte c < 2 ^ 32 := by
  induction bs with
  | nil => intro c hc; simpa using hc
  | cons b r ih =>
    intro c hc
    simpa [List.foldl] using ih (crc32Byte c b) (crc32Byte_lt c b hc)

theorem crc32_lt (bs : List Nat) : crc32 bs < 2 ^ 32 := by
  unfold crc32
  exact Nat.xor_lt_two_pow (crc32_foldl_lt bs _ (by norm_num)) (by norm_num)

theorem read_u32_leBytes (v : Nat) (rest : List Nat) (hv : v < 2 ^ 32) :
    read_u32 (u32Bytes v ++ rest) = .ok ((4, v), rest) := by
  have hlen : (u32Bytes v).length = 4 := leBytes_length 4 v
  unfold read_u32
  rw [if_neg (by simp [hlen])]
  rw [show (4 : Nat) = (u32Bytes v).length from hlen.symm]
  rw [List.take_left, List.drop_left]
  unfold u32Bytes
  rw [leVal_leBytes]
  rw [Nat.mod_eq_of_lt (by norm_num at hv ⊢; omega)]

theorem read_u64_leBytes (v : Nat) (rest : List Nat) (hv : v < 2 ^ 64) :
    read_u64 (u64Bytes v ++ rest) = .ok ((8, v), rest) := by
  have hlen : (u64Bytes v).length = 8 := leBytes_length 8 v
  unfold read_u64
  rw [if_neg (by simp [hlen])]
  rw [show (8 : Nat) = (u64Bytes v).length from hlen.symm]
  rw [List.take_left, List.drop_left]
  unfold u64Bytes
  rw [leVal_leBytes]
  rw [Nat.mod_eq_of_lt (by norm_num at hv ⊢; omega)]

theorem read_required_content_zero (rest : List Nat) :
    read_required_content (0 :: rest) = .ok ([[]], rest) := by
  have hc : read_c_string (0 :: rest) = .ok ((1, []), rest) := rfl
  rw [read_required_content.eq_def]
  split
  · rename_i e heq
    rw [hc] at heq
    simp at heq
  · rename_i n str s2 heq
    rw [hc] at heq
    simp only [Except.ok.injEq, Prod.mk.injEq] at heq
    rcases heq with ⟨⟨h1, h2⟩, h3⟩
    subst h2
    subst h3
    simp

theorem read_file_entries_tableF (fs : List BuilderFile) :
    ∀ (i cur : Nat) (rest : List Nat),
      (∀ f ∈ fs, 0 ∉ f.filename ∧ utf8Valid f.filename = true
        ∧ f.contents.length < 2 ^ 64)
      → i + fs.length < 2 ^ 32
      → read_file_entries_go (tableF i fs ++ (u32Bytes 0 ++ rest)) cur
          = .ok (entriesOf cur fs, rest) := by
  induction fs with
  | nil =>
    intro i cur rest hf hcount
    rw [tableF, List.nil_append, read_file_entries_go.eq_def]
    split
    · rename_i e heq
      rw [read_u32_leBytes 0 rest (by norm_num)] at heq
      simp at heq
    · rename_i a idx s1 heq
      rw [read_u32_leBytes 0 rest (by norm_num)] at heq
      simp only [Except.ok.injEq, Prod.mk.injEq] at heq
      rcases heq with ⟨⟨h1, h2⟩, h3⟩
      subst h2
      subst h3
      simp [entriesOf]
  | cons f fs ih =>
    intro i cur rest hf hcount
    have hf0 := hf f (by simp)
    have hfr : ∀ g ∈ fs, 0 ∉ g.filename ∧ utf8Valid g.filename = true
        ∧ g.contents.length < 2 ^ 64 := fun g hg => hf g (by simp [hg])
    have harr : tableF i (f :: fs) ++ (u32Bytes 0 ++ rest)
        = u32Bytes (i + 1) ++ (f.filename ++ 0
            :: (u64Bytes f.contents.length ++ (u32Bytes (crc32 f.contents)
              ++ (tableF (i + 1) fs ++ (u32Bytes 0 ++ rest))))) := by
      simp [tableF, entryHeaderF]
    have hu32 : read_u32 (tableF i (f :: fs) ++ (u32Bytes 0 ++ rest))
        = .ok ((4, i + 1), f.filename ++ 0
            :: (u64Bytes f.contents.length ++ (u32Bytes (crc32 f.contents)
              ++ (tableF (i + 1) fs ++ (u32Bytes 0 ++ rest))))) := by
      rw [harr]
      exact read_u32_leBytes (i + 1) _ (by simp at hcount ⊢; omega)
    rw [read_file_entries_go.eq_def]
    split
    · rename_i e heq
      rw [hu32] at heq
      simp at heq
    · rename_i a idx s1 heq
      rw [hu32] at heq
      simp only [Except.ok.injEq, Prod.mk.injEq] at heq
      rcases heq with ⟨⟨h1, h2⟩, h3⟩
      subst h2
      subst h3
      rw [if_neg (by omega)]
      split
      · rename_i e heq2
        rw [read_c_string_append f.filename _ hf0.1 hf0.2.1] at heq2
        simp at heq2
      · rename_i n fnm s2 heq2
        rw [read_c_string_append f.filename _ hf0.1 hf0.2.1] at heq2
        simp only [Except.ok.injEq, Prod.mk.injEq] at heq2
        rcases heq2 with ⟨⟨g1, g2⟩, g3⟩
        subst g2
        subst g3
        split
        · rename_i e heq3
          rw [read_u64_leBytes _ _ hf0.2.2] at heq3
          simp at heq3
        · rename_i a2 fsz s3 heq3
          rw [read_u64_leBytes _ _ hf0.2.2] at heq3
          simp only [Except.ok.injEq, Prod.mk.injEq] at heq3
          rcases heq3 with ⟨⟨k1, k2⟩, k3⟩
          subst k2
          subst k3
          split
          · rename_i e heq4
            rw [read_u32_leBytes _ _ (crc32_lt f.contents)] at heq4
            simp at heq4
          · rename_i a3 crcv s4 heq4
            rw [read_u32_leBytes _ _ (crc32_lt f.contents)] at heq4
            simp only [Except.ok.injEq, Prod.mk.injEq] at heq4
            rcases heq4 with ⟨⟨m1, m2⟩, m3⟩
            subst m2
            subst m3
            rw [ih (i + 1) (cur + f.contents.length) rest hfr
              (by simp at hcount ⊢; omega)]
            simp [entriesOf]

theorem read_version_u8 (v : Nat) (rest : List Nat) (h : v ∈ VALID_VERSIONS) :
    read_version (u8Bytes v ++ rest) = .ok (v, rest) := by
  have hv256 : v % 256 = v := by
    have h2 := h
    simp [VALID_VERSIONS] at h2
    rcases h2 with h2 | h2 | h2 <;> subst h2 <;> rfl
  simp [u8Bytes, leBytes, read_version, read_u8, hv256, h]

theorem read_gma_inner_archive (version steamid timestamp : Nat)
    (name mjson author : List Nat) (files : List BuilderFile)
    (hver : version = 2 ∨ version = 3)
    (hsid : steamid < 2 ^ 64) (hts : timestamp < 2 ^ 64)
    (hname0 : 0 ∉ name) (hnameU : utf8Valid name = true)
    (hm0 : 0 ∉ mjson) (hmU : utf8Valid mjson = true)
    (ha0 : 0 ∉ author) (haU : utf8Valid author = true)
    (hf : ∀ f ∈ files, 0 ∉ f.filename ∧ utf8Valid f.filename = true
      ∧ f.contents.length < 2 ^ 64)
    (hcount : files.length < 2 ^ 32) :
    read_gma_inner false (headerOf version steamid timestamp name mjson author
        ++ (tableF 0 files ++ (u32Bytes 0 ++ contentsOf files)))
      = .ok ⟨version, steamid, timestamp, name,
          (metadata_fields mjson).1, (metadata_fields mjson).2.1,
          (metadata_fields mjson).2.2, author, entriesOf 0 files,
          (headerOf version steamid timestamp name mjson author).length
            + (tableF 0 files).length + 4,
          false,
          headerOf version steamid timestamp name mjson author
            ++ (tableF 0 files ++ (u32Bytes 0 ++ contentsOf files))⟩ := by
  have harch : headerOf version steamid timestamp name mjson author
      ++ (tableF 0 files ++ (u32Bytes 0 ++ contentsOf files))
      = IDENT ++ (u8Bytes version ++ (u64Bytes steamid ++ (u64Bytes timestamp
        ++ (0 :: (name ++ 0 :: (mjson ++ 0 :: (author ++ 0 :: (u32Bytes 1
        ++ (tableF 0 files ++ (u32Bytes 0 ++ contentsOf files)))))))))) := by
    simp [headerOf, u8Bytes, leBytes]
  have hfds : (headerOf version steamid timestamp name mjson author
        ++ (tableF 0 files ++ (u32Bytes 0 ++ contentsOf files))).length
        - (contentsOf files).length
      = (headerOf version steamid timestamp name mjson author).length
        + (tableF 0 files).length + 4 := by
    simp [u32Bytes, leBytes_length]
    omega
  have hentries : read_file_entries
      (tableF 0 files ++ (u32Bytes 0 ++ contentsOf files))
      = .ok (entriesOf 0 files, contentsOf files) := by
    unfold read_file_entries
    exact read_file_entries_tableF files 0 0 _ hf (by omega)
  unfold read_gma_inner
  rw [harch, read_ident_append]
  simp only []
  rw [read_version_u8 version _ (by
    rcases hver with h | h <;> subst h <;> decide)]
  simp only []
  rw [read_u64_leBytes _ _ hsid]
  simp only []
  rw [read_u64_leBytes _ _ hts]
  simp only []
  rw [if_pos (show 1 < version by rcases hver with h | h <;> omega)]
  rw [read_required_content_zero]
  simp only []
  rw [read_c_string_append name _ hname0 hnameU]
  simp only []
  rw [read_c_string_append mjson _ hm0 hmU]
  simp only []
  rw [read_c_string_append author _ ha0 haU]
  simp only []
  rw [read_u32_leBytes 1 _ (by norm_num)]
  simp only []
  rw [hentries]
  simp only []
  rw [← harch]
  rw [hfds]

theorem metadata_fields_encoded (name desc : List Nat) (ty : AddonType)
    (tags : List AddonTag) (htags : tags.length ≤ 2) :
    metadata_fields ((AddonMetadata.new name desc ty tags).to_json)
      = (desc, some ty, tags) := by
  have hj : AddonMetadata.from_json ((AddonMetadata.new name desc ty tags).to_json)
      = some ⟨some name, desc, type_to_string ty, tags.map tag_to_string⟩ := by
    unfold AddonMetadata.new
    exact from_json_to_json name desc (type_to_string ty) (tags.map tag_to_string)
  unfold metadata_fields
  rw [hj]
  rcases tags with _ | ⟨a, _ | ⟨b, _ | ⟨c, r⟩⟩⟩
  · simp [AddonMetadata.get_tags, AddonMetadata.get_description,
      AddonMetadata.get_type, string_to_type_of_type]
  · simp [AddonMetadata.get_tags, AddonMetadata.get_description,
      AddonMetadata.get_type, string_to_type_of_type, string_to_tag_of_tag]
  · simp [AddonMetadata.get_tags, AddonMetadata.get_description,
      AddonMetadata.get_type, string_to_type_of_type, string_to_tag_of_tag]
  · simp at htags

theorem jsonEscape_no_zero (s : List Nat) (h : 0 ∉ s) : 0 ∉ jsonEscape s := by
  induction s with
  | nil => simp [jsonEscape]
  | cons b r ih =>
    have hb : b ≠ 0 := fun hx => h (by simp [hx])
    have hr : 0 ∉ r := fun hx => h (by simp [hx])
    unfold jsonEscape
    split
    · intro hmem
      simp at hmem
      rcases hmem with h1 | h1
      · exact hb h1.symm
      · exact ih hr h1
    · intro hmem
      simp at hmem
      rcases hmem with h1 | h1
      · exact hb h1.symm
      · exact ih hr h1

theorem jsonString_no_zero (s : List Nat) (h : 0 ∉ s) : 0 ∉ jsonString s := by
  intro hmem
  rw [jsonString] at hmem
  rcases List.mem_cons.mp hmem with h1 | h1
  · exact absurd h1 (by norm_num)
  · rcases List.mem_append.mp h1 with h2 | h2
    · exact jsonEscape_no_zero s h h2
    · simp at h2

theorem tag_to_string_no_zero (t : AddonTag) : 0 ∉ tag_to_string t := by
  cases t <;> decide

theorem type_to_string_no_zero (ty : AddonType) : 0 ∉ type_to_string ty := by
  cases ty <;> decide

theorem tagsJsonMore_no_zero (ts : List (List Nat))
    (h : ∀ t ∈ ts, 0 ∉ t) : 0 ∉ tagsJsonMore ts := by
  induction ts with
  | nil => simp [tagsJsonMore]
  | cons t r ih =>
    intro hmem
    simp [tagsJsonMore] at hmem
    rcases hmem with h1 | h1
    · exact jsonString_no_zero t (h t (by simp)) h1
    · exact ih (fun g hg => h g (by simp [hg])) h1

theorem tagsJson_no_zero (ts : List (List Nat))
    (h : ∀ t ∈ ts, 0 ∉ t) : 0 ∉ tagsJson ts := by
  cases ts with
  | nil => simp [tagsJson]
  | cons t r =>
    intro hmem
    simp [tagsJson] at hmem
    rcases hmem with h1 | h1
    · exact jsonString_no_zero t (h t (by simp)) h1
    · exact tagsJsonMore_no_zero r (fun g hg => h g (by simp [hg])) h1

theorem to_json_no_zero (name desc : List Nat) (ty : AddonType)
    (tags : List AddonTag) (hn : 0 ∉ name) (hd : 0 ∉ desc) :
    0 ∉ (AddonMetadata.new name desc ty tags).to_json := by
  intro hmem
  unfold AddonMetadata.new AddonMetadata.to_json at hmem
  simp only [List.mem_append, List.mem_cons] at hmem
  rcases hmem with ((((((((h1 | h1) | h1) | h1) | h1) | h1) | h1) | h1) | h1)
  · simp [keyTitle] at h1
  · exact jsonString_no_zero name hn h1
  · simp [keyDesc] at h1
  · exact jsonString_no_zero desc hd h1
  · simp [keyType] at h1
  · exact jsonString_no_zero _ (type_to_string_no_zero ty) h1
  · simp [keyTags] at h1
  · exact tagsJson_no_zero _ (by
      intro t ht
      simp at ht
      obtain ⟨tag, htag, hteq⟩ := ht
      rw [← hteq]
      exact tag_to_string_no_zero tag) h1
  · simp at h1

theorem utf8Next_good (st : Utf8State) (b : Nat) (st2 : Utf8State)
    (hg : goodState st) (h : utf8Next st b = some st2) : goodState st2 := by
  cases st with
  | start =>
    simp only [utf8Next] at h
    repeat' split at h
    all_goals
      first
        | exact Option.noConfusion h
        | (injection h with h; subst h; simp [goodState])
  | expect lo hi more =>
    simp only [utf8Next] at h
    repeat' split at h
    all_goals
      first
        | exact Option.noConfusion h
        | (injection h with h; subst h; simp [goodState])

theorem utf8Run_cons (st : Utf8State) (b : Nat) (r : List Nat) :
    utf8Run st (b :: r)
      = (match utf8Next st b with
         | none => false
         | some st2 => utf8Run st2 r) := rfl

theorem utf8Run_escape (s : List Nat) : ∀ (st : Utf8State), goodState st →
    utf8Run st s = true → utf8Run st (jsonEscape s) = true := by
  induction s with
  | nil => intro st hg h; exact h
  | cons b r ih =>
    intro st hg h
    rw [utf8Run_cons] at h
    rcases hn : utf8Next st b with _ | st2
    · rw [hn] at h; simp at h
    · rw [hn] at h
      simp only [] at h
      have hg2 := utf8Next_good st b st2 hg hn
      by_cases hb : b = 34 ∨ b = 92
      · have hst : st = .start := by
          cases st with
          | start => rfl
          | expect lo hi more =>
            exfalso
            simp only [utf8Next] at hn
            by_cases hc : lo ≤ b ∧ b ≤ hi
            · have hlo : (128 : Nat) ≤ lo := hg
              rcases hb with hb | hb <;> subst hb <;> omega
            · rw [if_neg hc] at hn
              exact Option.noConfusion hn
        subst hst
        have hst2 : st2 = .start := by
          simp only [utf8Next] at hn
          rcases hb with hb | hb <;> subst hb <;>
            (rw [if_pos (by norm_num)] at hn
             exact (Option.some.inj hn).symm)
        subst hst2
        rw [jsonEscape, if_pos hb]
        rcases hb with hb | hb <;> subst hb
        · rw [utf8Run_cons]
          rw [show utf8Next Utf8State.start 92 = some Utf8State.start from rfl]
          simp only []
          rw [utf8Run_cons]
          rw [show utf8Next Utf8State.start 34 = some Utf8State.start from rfl]
          simp only []
          exact ih Utf8State.start trivial h
        · rw [utf8Run_cons]
          rw [show utf8Next Utf8State.start 92 = some Utf8State.start from rfl]
          simp only []
          rw [utf8Run_cons]
          rw [show utf8Next Utf8State.start 92 = some Utf8State.start from rfl]
          simp only []
          exact ih Utf8State.start trivial h
      · rw [jsonEscape, if_neg hb]
        rw [utf8Run_cons]
        rw [hn]
        simp only []
        exact ih st2 hg2 h

theorem utf8Valid_jsonString (s : List Nat) (h : utf8Valid s = true) :
    utf8Valid (jsonString s) = true := by
  have hesc : utf8Valid (jsonEscape s) = true :=
    utf8Run_escape s .start trivial h
  have : jsonString s = [34] ++ (jsonEscape s ++ [34]) := by simp [jsonString]
  rw [this]
  exact utf8Valid_append _ _ (by decide)
    (utf8Valid_append _ _ hesc (by decide))

theorem utf8Valid_type_string (ty : AddonType) :
    utf8Valid (type_to_string ty) = true := by
  cases ty <;> decide

theorem utf8Valid_tag_string (t : AddonTag) :
    utf8Valid (tag_to_string t) = true := by
  cases t <;> decide

theorem utf8Valid_tagsJsonMore (ts : List (List Nat))
    (h : ∀ t ∈ ts, utf8Valid t = true) : utf8Valid (tagsJsonMore ts) = true := by
  induction ts with
  | nil => decide
  | cons t r ih =>
    rw [tagsJsonMore]
    rw [show (44 : Nat) :: (jsonString t ++ tagsJsonMore r)
      = [44] ++ (jsonString t ++ tagsJsonMore r) from rfl]
    exact utf8Valid_append _ _ (by decide)
      (utf8Valid_append _ _ (utf8Valid_jsonString t (h t (by simp)))
        (ih fun g hg => h g (by simp [hg])))

theorem utf8Valid_tagsJson (ts : List (List Nat))
    (h : ∀ t ∈ ts, utf8Valid t = true) : utf8Valid (tagsJson ts) = true := by
  cases ts with
  | nil => decide
  | cons t r =>
    rw [tagsJson]
    exact utf8Valid_append _ _ (utf8Valid_jsonString t (h t (by simp)))
      (utf8Valid_tagsJsonMore r fun g hg => h g (by simp [hg]))

theorem utf8Valid_to_json (name desc : List Nat) (ty : AddonType)
    (tags : List AddonTag) (hn : utf8Valid name = true)
    (hd : utf8Valid desc = true) :
    utf8Valid ((AddonMetadata.new name desc ty tags).to_json) = true := by
  unfold AddonMetadata.new AddonMetadata.to_json
  simp only []
  have htags : utf8Valid (tagsJson (tags.map tag_to_string)) = true := by
    refine utf8Valid_tagsJson _ ?_
    intro t ht
    simp at ht
    obtain ⟨tag, htag, hteq⟩ := ht
    rw [← hteq]
    exact utf8Valid_tag_string tag
  refine utf8Valid_append _ _ ?_ (by decide)
  refine utf8Valid_append _ _ ?_ htags
  refine utf8Valid_append _ _ ?_ (by decide)
  refine utf8Valid_append _ _ ?_
    (utf8Valid_jsonString _ (utf8Valid_type_string ty))
  refine utf8Valid_append _ _ ?_ (by decide)
  refine utf8Valid_append _ _ ?_ (utf8Valid_jsonString desc hd)
  refine utf8Valid_append _ _ ?_ (by decide)
  exact utf8Valid_append _ _ (by decide) (utf8Valid_jsonString name hn)

theorem entriesOf_length (fs : List BuilderFile) :
    ∀ cur, (entriesOf cur fs).length = fs.length := by
  induction fs with
  | nil => intro cur; rfl
  | cons f fs ih => intro cur; simp [entriesOf, ih]

theorem entriesOf_get? (fs : List BuilderFile) :
    ∀ (cur i : Nat),
      (entriesOf cur fs).get? i
        = (fs.get? i).map fun f =>
            ⟨f.filename, f.contents.length, crc32 f.contents,
              cur + (contentsOf (fs.take i)).length⟩ := by
  induction fs with
  | nil => intro cur i; simp [entriesOf]
  | cons f fs ih =>
    intro cur i
    cases i with
    | zero => simp [entriesOf, contentsOf]
    | succ j =>
      rw [entriesOf]
      rw [List.get?_cons_succ, List.get?_cons_succ, ih (cur + f.contents.length) j]
      simp [contentsOf, List.take, Nat.add_assoc]

theorem contentsOf_slice (fs : List BuilderFile) :
    ∀ (i : Nat) (f : BuilderFile), fs.get? i = some f →
      ((contentsOf fs).drop (contentsOf (fs.take i)).length).take
          f.contents.length
        = f.contents := by
  induction fs with
  | nil => intro i f h; simp at h
  | cons g fs ih =>
    intro i f h
    cases i with
    | zero =>
      simp at h
      subst h
      simp [contentsOf, List.take_left]
    | succ j =>
      rw [List.get?_cons_succ] at h
      rw [show (g :: fs).take (j + 1) = g :: fs.take j from rfl]
      rw [show contentsOf (g :: (fs.take j)) = g.contents ++ contentsOf (fs.take j) from rfl]
      rw [show contentsOf (g :: fs) = g.contents ++ contentsOf fs from rfl]
      rw [List.length_append, List.drop_append, ih j f h]

theorem tagsList_get? (tags : List AddonTag) (h : tags.length ≤ 2) :
    tagsList (tags.get? 0, tags.get? 1) = tags := by
  rcases tags with _ | ⟨a, _ | ⟨b, _ | ⟨c, r⟩⟩⟩
  · rfl
  · rfl
  · rfl
  · simp at h

theorem archive_drop (H T C : List Nat) (off : Nat) :
    (H ++ (T ++ (u32Bytes 0 ++ C))).drop (H.length + T.length + 4 + off)
      = C.drop off := by
  have h1 : H.length + T.length + 4 + off
      = H.length + (T.length + ((u32Bytes 0).length + off)) := by
    simp [u32Bytes, leBytes_length]
    omega
  rw [h1, List.drop_append, List.drop_append, List.drop_append]

set_option maxHeartbeats 1000000 in
/-- Claim C1 (corrected): the write/read round trip holds for archives
built with version 2 or 3 (and at most 2^32 - 1 files, the range of the
on-disk entry index): writing with compression off and loading the bytes
back recovers version, steam id, timestamp, name, description, type,
tags and author exactly, yields one entry per file source in order with
the original filename, the content length as size and the CRC-32/ISO-HDLC
checksum of the content, and read_entry returns exactly the original
bytes of each file.  Version 1 is excluded: the builder still writes the
required-content byte that the reader only consumes for versions above 1,
so version-1 archives do not parse back correctly. -/
theorem c1_roundtrip (lzc lzd : List Nat → Option (List Nat))
    (version steamid timestamp : Nat) (name description author : List Nat)
    (ty : AddonType) (tags : List AddonTag) (files : List BuilderFile)
    (hver : version = 2 ∨ version = 3)
    (hsid : steamid < 2 ^ 64) (hts : timestamp < 2 ^ 64)
    (hname : utf8Valid name = true ∧ 0 ∉ name)
    (hdesc : utf8Valid description = true ∧ 0 ∉ description)
    (hauthor : utf8Valid author = true ∧ 0 ∉ author)
    (htags : tags.length ≤ 2)
    (hfiles : ∀ f ∈ files, (utf8Valid f.filename = true ∧ 0 ∉ f.filename)
      ∧ f.contents.length < 2 ^ 64)
    (hcount : files.length < 2 ^ 32) :
    ∃ out g,
      write_to lzc ⟨some version, some steamid, some timestamp, some name,
          some description, some author, files, ty,
          (tags.get? 0, tags.get? 1), some false⟩ = .ok out
      ∧ read_gma lzd out = .ok g
      ∧ g.version = version ∧ g.steamid = steamid ∧ g.timestamp = timestamp
      ∧ g.name = name ∧ g.description = description
      ∧ g.addon_type = some ty ∧ g.addon_tags = tags ∧ g.author = author
      ∧ g.entries.length = files.length
      ∧ ∀ (i : Nat) (f : BuilderFile), files.get? i = some f →
          ∃ e, g.entries.get? i = some e
            ∧ e.filename = f.filename
            ∧ e.filesize = f.contents.length
            ∧ e.crc = crc32 f.contents
            ∧ (g.read_entry e).1 = f.contents := by
  have hslots : tagsList (tags.get? 0, tags.get? 1) = tags :=
    tagsList_get? tags htags
  have hjson0 : 0 ∉ (AddonMetadata.new name description ty tags).to_json :=
    to_json_no_zero name description ty tags hname.2 hdesc.2
  have hjsonU : utf8Valid ((AddonMetadata.new name description ty tags).to_json)
      = true := utf8Valid_to_json name description ty tags hname.1 hdesc.1
  have hf2 : ∀ f ∈ files, 0 ∉ f.filename := fun f hf => ((hfiles f hf).1).2
  have hf3 : ∀ f ∈ files, 0 ∉ f.filename ∧ utf8Valid f.filename = true
      ∧ f.contents.length < 2 ^ 64 :=
    fun f hf => ⟨((hfiles f hf).1).2, ((hfiles f hf).1).1, (hfiles f hf).2⟩
  have hwrite : write_to lzc ⟨some version, some steamid, some timestamp,
      some name, some description, some author, files, ty,
      (tags.get? 0, tags.get? 1), some false⟩
      = .ok (headerOf version steamid timestamp name
          ((AddonMetadata.new name description ty tags).to_json) author
        ++ (tableF 0 files ++ (u32Bytes 0 ++ contentsOf files))) := by
    have := write_to_gen_layout version steamid timestamp name description
      author ty (tags.get? 0, tags.get? 1) files (some false)
      hname.2 (by rw [hslots]; exact hjson0) hauthor.2 hf2
    rw [hslots] at this
    rw [show write_to lzc ⟨some version, some steamid, some timestamp,
        some name, some description, some author, files, ty,
        (tags.get? 0, tags.get? 1), some false⟩
      = write_to_gen ⟨some version, some steamid, some timestamp,
        some name, some description, some author, files, ty,
        (tags.get? 0, tags.get? 1), some false⟩ from rfl]
    exact this
  have hinner := read_gma_inner_archive version steamid timestamp name
    ((AddonMetadata.new name description ty tags).to_json) author files
    hver hsid hts hname.2 hname.1 hjson0 hjsonU hauthor.2 hauthor.1
    hf3 hcount
  have hout4 : headerOf version steamid timestamp name
        ((AddonMetadata.new name description ty tags).to_json) author
        ++ (tableF 0 files ++ (u32Bytes 0 ++ contentsOf files))
      = IDENT ++ (u8Bytes version ++ u64Bytes steamid ++ u64Bytes timestamp
        ++ u8Bytes 0 ++ name ++ [0]
        ++ (AddonMetadata.new name description ty tags).to_json ++ [0]
        ++ author ++ [0] ++ u32Bytes 1
        ++ (tableF 0 files ++ (u32Bytes 0 ++ contentsOf files))) := by
    simp [headerOf, List.append_assoc]
  have htake : (headerOf version steamid timestamp name
        ((AddonMetadata.new name description ty tags).to_json) author
        ++ (tableF 0 files ++ (u32Bytes 0 ++ contentsOf files))).take 4
      = IDENT := by
    rw [hout4]
    rw [show (4 : Nat) = IDENT.length from rfl]
    exact List.take_left _ _
  have hlen4 : 4 ≤ (headerOf version steamid timestamp name
        ((AddonMetadata.new name description ty tags).to_json) author
        ++ (tableF 0 files ++ (u32Bytes 0 ++ contentsOf files))).length := by
    rw [hout4]
    simp [IDENT]
  have hread : read_gma lzd (headerOf version steamid timestamp name
        ((AddonMetadata.new name description ty tags).to_json) author
        ++ (tableF 0 files ++ (u32Bytes 0 ++ contentsOf files)))
      = .ok ⟨version, steamid, timestamp, name,
          (metadata_fields ((AddonMetadata.new name description ty tags).to_json)).1,
          (metadata_fields ((AddonMetadata.new name description ty tags).to_json)).2.1,
          (metadata_fields ((AddonMetadata.new name description ty tags).to_json)).2.2,
          author, entriesOf 0 files,
          (headerOf version steamid timestamp name
            ((AddonMetadata.new name description ty tags).to_json) author).length
            + (tableF 0 files).length + 4,
          false,
          headerOf version steamid timestamp name
            ((AddonMetadata.new name description ty tags).to_json) author
            ++ (tableF 0 files ++ (u32Bytes 0 ++ contentsOf files))⟩ := by
    rw [read_gma_uncompressed lzd _ htake hlen4]
    rw [hinner]
  have hmf := metadata_fields_encoded name description ty tags htags
  refine ⟨_, _, hwrite, hread, rfl, rfl, rfl, rfl, ?_, ?_, ?_, rfl, ?_, ?_⟩
  · simp only [hmf]
  · simp only [hmf]
  · simp only [hmf]
  · exact entriesOf_length files 0
  · intro i f hget
    refine ⟨⟨f.filename, f.contents.length, crc32 f.contents,
      (contentsOf (files.take i)).length⟩, ?_, rfl, rfl, rfl, ?_⟩
    · rw [entriesOf_get? files 0 i, hget]
      simp
    · change ((headerOf version steamid timestamp name
            ((AddonMetadata.new name description ty tags).to_json) author
            ++ (tableF 0 files ++ (u32Bytes 0 ++ contentsOf files))).drop
              ((headerOf version steamid timestamp name
                ((AddonMetadata.new name description ty tags).to_json) author).length
                + (tableF 0 files).length + 4
                + (contentsOf (files.take i)).length)).take f.contents.length
        = f.contents
      rw [archive_drop]
      exact contentsOf_slice files i f hget

theorem read_gma_inner_archiveOf (ver sid ts : Nat)
    (name m author : List Nat) (av : Nat) (rest : List Nat)
    (entries : List FileEntry) (rest2 : List Nat)
    (hver : ver ∈ VALID_VERSIONS)
    (hsid : sid < 2 ^ 64) (hts : ts < 2 ^ 64) (hav : av < 2 ^ 32)
    (hn0 : 0 ∉ name) (hnU : utf8Valid name = true)
    (hm0 : 0 ∉ m) (hmU : utf8Valid m = true)
    (ha0 : 0 ∉ author) (haU : utf8Valid author = true)
    (hent : read_file_entries rest = .ok (entries, rest2)) :
    read_gma_inner false (archiveOf ver sid ts name m author av rest)
      = .ok ⟨ver, sid, ts, name, (metadata_fields m).1,
          (metadata_fields m).2.1, (metadata_fields m).2.2, author, entries,
          (archiveOf ver sid ts name m author av rest).length - rest2.length,
          false, archiveOf ver sid ts name m author av rest⟩ := by
  unfold read_gma_inner
  rw [show archiveOf ver sid ts name m author av rest
    = IDENT ++ (u8Bytes ver ++ (u64Bytes sid ++ (u64Bytes ts
      ++ ((if 1 < ver then [0] else []) ++ (name ++ 0 :: (m ++ 0 :: (author
        ++ 0 :: (u32Bytes av ++ rest)))))))) from rfl]
  rw [read_ident_append]
  simp only []
  rw [read_version_u8 ver _ hver]
  simp only []
  rw [read_u64_leBytes _ _ hsid]
  simp only []
  rw [read_u64_leBytes _ _ hts]
  simp only []
  by_cases h1 : 1 < ver
  · rw [if_pos h1, if_pos h1]
    rw [show ([0] ++ (name ++ 0 :: (m ++ 0 :: (author
        ++ 0 :: (u32Bytes av ++ rest)))))
      = 0 :: (name ++ 0 :: (m ++ 0 :: (author
        ++ 0 :: (u32Bytes av ++ rest)))) from rfl]
    rw [read_required_content_zero]
    simp only []
    rw [read_c_string_append name _ hn0 hnU]
    simp only []
    rw [read_c_string_append m _ hm0 hmU]
    simp only []
    rw [read_c_string_append author _ ha0 haU]
    simp only []
    rw [read_u32_leBytes av _ hav]
    simp only []
    rw [hent]
  · rw [if_neg h1, if_neg h1]
    rw [List.nil_append]
    simp only []
    rw [read_c_string_append name _ hn0 hnU]
    simp only []
    rw [read_c_string_append m _ hm0 hmU]
    simp only []
    rw [read_c_string_append author _ ha0 haU]
    simp only []
    rw [read_u32_leBytes av _ hav]
    simp only []
    rw [hent]

theorem read_file_entries_zero (rest : List Nat) :
    read_file_entries (u32Bytes 0 ++ rest) = .ok ([], rest) := by
  have h := read_file_entries_tableF [] 0 0 rest (by simp) (by norm_num)
  simpa [read_file_entries, tableF, entriesOf] using h

theorem archiveOf_take4 (ver sid ts : Nat) (name m author : List Nat)
    (av : Nat) (rest : List Nat) :
    (archiveOf ver sid ts name m author av rest).take 4 = IDENT := by
  unfold archiveOf
  rw [show (4 : Nat) = IDENT.length from rfl]
  exact List.take_left _ _

theorem archiveOf_len4 (ver sid ts : Nat) (name m author : List Nat)
    (av : Nat) (rest : List Nat) :
    4 ≤ (archiveOf ver sid ts name m author av rest).length := by
  unfold archiveOf
  simp [IDENT]

theorem read_gma_archiveOf (d : List Nat → Option (List Nat)) (ver sid ts : Nat)
    (name m author : List Nat) (av : Nat) (rest : List Nat)
    (entries : List FileEntry) (rest2 : List Nat)
    (hver : ver ∈ VALID_VERSIONS)
    (hsid : sid < 2 ^ 64) (hts : ts < 2 ^ 64) (hav : av < 2 ^ 32)
    (hn0 : 0 ∉ name) (hnU : utf8Valid name = true)
    (hm0 : 0 ∉ m) (hmU : utf8Valid m = true)
    (ha0 : 0 ∉ author) (haU : utf8Valid author = true)
    (hent : read_file_entries rest = .ok (entries, rest2)) :
    read_gma d (archiveOf ver sid ts name m author av rest)
      = .ok ⟨ver, sid, ts, name, (metadata_fields m).1,
          (metadata_fields m).2.1, (metadata_fields m).2.2, author, entries,
          (archiveOf ver sid ts name m author av rest).length - rest2.length,
          false, archiveOf ver sid ts name m author av rest⟩ := by
  rw [read_gma_uncompressed d _
    (archiveOf_take4 ver sid ts name m author av rest)
    (archiveOf_len4 ver sid ts name m author av rest)]
  rw [read_gma_inner_archiveOf ver sid ts name m author av rest entries rest2
    hver hsid hts hav hn0 hnU hm0 hmU ha0 haU hent]

/-- Claim C7: metadata fallback.  For every archive (any valid version,
any header fields, any entry table) whose embedded metadata text does not
decode as the structured record, reading the archive succeeds - the
malformed metadata raises no error - and the raw metadata text becomes the
description, the addon type is none and the tag list is empty. -/
theorem c7_metadata_fallback (d : List Nat → Option (List Nat))
    (ver sid ts : Nat) (name m author : List Nat) (av : Nat)
    (rest : List Nat) (entries : List FileEntry) (rest2 : List Nat)
    (hver : ver ∈ VALID_VERSIONS)
    (hsid : sid < 2 ^ 64) (hts : ts < 2 ^ 64) (hav : av < 2 ^ 32)
    (hn0 : 0 ∉ name) (hnU : utf8Valid name = true)
    (hm0 : 0 ∉ m) (hmU : utf8Valid m = true)
    (ha0 : 0 ∉ author) (haU : utf8Valid author = true)
    (hent : read_file_entries rest = .ok (entries, rest2))
    (hjson : AddonMetadata.from_json m = none) :
    ∃ g, read_gma d (archiveOf ver sid ts name m author av rest) = .ok g
      ∧ g.description = m ∧ g.addon_type = none ∧ g.addon_tags = [] := by
  have hmf : metadata_fields m = (m, none, []) := by
    unfold metadata_fields
    rw [hjson]
  refine ⟨_, read_gma_archiveOf d ver sid ts name m author av rest entries
    rest2 hver hsid hts hav hn0 hnU hm0 hmU ha0 haU hent, ?_, ?_, ?_⟩
  · show (metadata_fields m).1 = m
    rw [hmf]
  · show (metadata_fields m).2.1 = none
    rw [hmf]
  · show (metadata_fields m).2.2 = []
    rw [hmf]

/-- Witness for C7 at a concrete archive: version 3, metadata text
"hello" (not structured JSON), one empty entry table. -/
theorem c7_metadata_fallback_witness :
    ∃ g, read_gma (fun _ => none)
        (archiveOf 3 5 7 [78] [104, 101, 108, 108, 111] [65] 1
          (u32Bytes 0 ++ [])) = .ok g
      ∧ g.description = [104, 101, 108, 108, 111]
      ∧ g.addon_type = none ∧ g.addon_tags = [] :=
  c7_metadata_fallback (fun _ => none) 3 5 7 [78] [104, 101, 108, 108, 111]
    [65] 1 (u32Bytes 0 ++ []) [] []
    (by decide) (by norm_num) (by norm_num) (by norm_num)
    (by decide) (by decide) (by decide) (by decide) (by decide) (by decide)
    (read_file_entries_zero []) (by decide)

set_option maxRecDepth 100000 in
/-- Claim C4 (refuted): version gating of the required-content section.
The reader does skip that section exactly for version-1 archives, but the
builder writes the section's empty-string terminator byte unconditionally
(write_to_gen always emits write_u8(0) after the timestamp), so a
version-1 archive it produces does contain a required-content section:
the byte right after the 21-byte fixed header (magic, version, steam id,
timestamp) is 0.  Reading such an archive back therefore misparses - the
reader takes that byte as the terminator of the addon name and returns an
empty name instead of the name "A" that was written. -/
theorem c4_version_gating :
    ∃ out g,
      write_to (fun _ => none) ⟨some 1, some 5, some 7, some [65], some [],
          some [66], [], AddonType.Tool, (none, none), some false⟩ = .ok out
      ∧ out.take 22
          = IDENT ++ (u8Bytes 1 ++ (u64Bytes 5 ++ (u64Bytes 7 ++ [0])))
      ∧ read_gma (fun _ => none) out = .ok g
      ∧ g.name = [] := by
  have hw : write_to (fun _ => none) ⟨some 1, some 5, some 7, some [65],
      some [], some [66], [], AddonType.Tool, (none, none), some false⟩
      = .ok (archiveOf 1 5 7 [] [65]
          ((AddonMetadata.new [65] [] AddonType.Tool []).to_json) 65602
          (u32Bytes 0 ++ [0, 0])) := by rfl
  have hr := read_gma_archiveOf (fun _ => none) 1 5 7 [] [65]
    ((AddonMetadata.new [65] [] AddonType.Tool []).to_json) 65602
    (u32Bytes 0 ++ [0, 0]) [] [0, 0]
    (by decide) (by norm_num) (by norm_num) (by norm_num)
    (by decide) (by decide) (by decide) (by decide)
    (to_json_no_zero [65] [] AddonType.Tool [] (by decide) (by decide))
    (utf8Valid_to_json [65] [] AddonType.Tool [] (by decide) (by decide))
    (read_file_entries_zero [0, 0])
  exact ⟨_, _, hw, by rfl, hr, rfl⟩

set_option maxRecDepth 100000 in
/-- Claim C1 (counterexample): the round trip fails for version 1.  The
builder output for a version-1 addon named "V" reads back successfully
but with an empty name, because the unconditionally written
required-content byte is taken by the reader as the name terminator. -/
theorem c1_counterexample :
    ∃ out g,
      write_to (fun _ => none) ⟨some 1, some 5, some 7, some [86], some [],
          some [87], [], AddonType.Tool, (none, none), some false⟩ = .ok out
      ∧ read_gma (fun _ => none) out = .ok g
      ∧ g.name ≠ [86] := by
  have hw : write_to (fun _ => none) ⟨some 1, some 5, some 7, some [86],
      some [], some [87], [], AddonType.Tool, (none, none), some false⟩
      = .ok (archiveOf 1 5 7 [] [86]
          ((AddonMetadata.new [86] [] AddonType.Tool []).to_json) 65623
          (u32Bytes 0 ++ [0, 0])) := by rfl
  have hr := read_gma_archiveOf (fun _ => none) 1 5 7 [] [86]
    ((AddonMetadata.new [86] [] AddonType.Tool []).to_json) 65623
    (u32Bytes 0 ++ [0, 0]) [] [0, 0]
    (by decide) (by norm_num) (by norm_num) (by norm_num)
    (by decide) (by decide) (by decide) (by decide)
    (to_json_no_zero [86] [] AddonType.Tool [] (by decide) (by decide))
    (utf8Valid_to_json [86] [] AddonType.Tool [] (by decide) (by decide))
    (read_file_entries_zero [0, 0])
  exact ⟨_, _, hw, hr, by decide⟩

/-- Witness for C1 at the repository integration test's own input:
version 3, the test's name, description, author, type Model, tags Build
and Fun, and one file "file1" containing "hello". -/
theorem c1_roundtrip_witness :
    ∃ out g,
      write_to (fun _ => none) ⟨some 3, some 123456, some 987654,
          some (asciiOf "ADDON_NAME"), some (asciiOf "ADDON_DESC"),
          some (asciiOf "AUTHOR_NAME"),
          [⟨asciiOf "file1", asciiOf "hello"⟩], AddonType.Model,
          ([AddonTag.Build, AddonTag.Fun].get? 0,
            [AddonTag.Build, AddonTag.Fun].get? 1), some false⟩ = .ok out
      ∧ read_gma (fun _ => none) out = .ok g
      ∧ g.version = 3 ∧ g.steamid = 123456 ∧ g.timestamp = 987654
      ∧ g.name = asciiOf "ADDON_NAME" ∧ g.description = asciiOf "ADDON_DESC"
      ∧ g.addon_type = some AddonType.Model
      ∧ g.addon_tags = [AddonTag.Build, AddonTag.Fun]
      ∧ g.author = asciiOf "AUTHOR_NAME"
      ∧ g.entries.length
          = [(⟨asciiOf "file1", asciiOf "hello"⟩ : BuilderFile)].length
      ∧ ∀ (i : Nat) (f : BuilderFile),
          [(⟨asciiOf "file1", asciiOf "hello"⟩ : BuilderFile)].get? i = some f →
          ∃ e, g.entries.get? i = some e
            ∧ e.filename = f.filename
            ∧ e.filesize = f.contents.length
            ∧ e.crc = crc32 f.contents
            ∧ (g.read_entry e).1 = f.contents :=
  c1_roundtrip (fun _ => none) (fun _ => none) 3 123456 987654
    (asciiOf "ADDON_NAME") (asciiOf "ADDON_DESC") (asciiOf "AUTHOR_NAME")
    AddonType.Model [AddonTag.Build, AddonTag.Fun]
    [⟨asciiOf "file1", asciiOf "hello"⟩]
    (Or.inr rfl) (by norm_num) (by norm_num)
    ⟨by decide, by decide⟩ ⟨by decide, by decide⟩ ⟨by decide, by decide⟩
    (by decide) (by decide) (by norm_num)
